import Mathlib

/-!
Verification development for the PC-BASIC interpreter core
(variable/array memory model `var.py`, statement parser `statements.py`,
keyboard buffer `keyboard.py`).

Python source is shallowly embedded: module-level mutable state becomes an
explicit state record (`BState`), Python exceptions (`error.RunError(n)`)
become `Except Nat` / `Option Nat` with the numeric BASIC error code, and
Python byte strings become `List Nat`.
-/

namespace PCBasic

/-! ## Values and names (var.py / vartypes) -/

/-- A BASIC value as stored: numeric values are their raw byte
representation, strings are their byte content. -/
inductive BValue where
  | numVal (bytes : List Nat)
  | strVal (s : List Nat)
  deriving DecidableEq

/-- The sigil (type character) of a completed name: its last character.
Python `name[-1]`. -/
def sigilOf (name : String) : Char :=
  (name.data.getLast?).getD ' '

/-- Test for the four valid sigil characters. -/
def isSigil (c : Char) : Bool :=
  c = '$' || c = '%' || c = '!' || c = '#'

/-- var.py: `byte_size = {'$':3, '%':2, '!':4, '#':8}`; total function with
0 for characters outside the dict (callers only use sigil characters). -/
def byte_size0 (c : Char) : Nat :=
  if c = '$' then 3 else if c = '%' then 2 else if c = '!' then 4
  else if c = '#' then 8 else 0

/-- Modelled from the spec: `vartypes.complete_name` (vartypes.py is not in
src/).  Spec section 3: if no sigil is present the name is completed using the
current DEFtype table; the default table is all `!` (var.py line 48 resets it
to `['!']*26`).  We model the default table. -/
def complete_name (name : String) : String :=
  if isSigil (sigilOf name) then name else name.push '!'

/-- Modelled from the spec: `vartypes.null` (vartypes.py is not in src/).
The zero value of each type: zero bytes for numeric types, the empty string
for `$`. -/
def null_value (c : Char) : BValue :=
  if c = '$' then .strVal [] else .numVal (List.replicate (byte_size0 c) 0)

/-- Modelled from the spec: `vartypes.pass_type_keep` (vartypes.py is not in
src/).  Spec section 3: any numeric-to-string conversion raises Type Mismatch
(13); a value already of the target kind is kept (numeric cross-type
coercion is not modelled: callers in the theorems below supply values whose
bytes already have the target type's size). -/
def pass_type_keep (c : Char) (v : BValue) : Except Nat BValue :=
  match v with
  | .strVal s => if c = '$' then .ok (.strVal s) else .error 13
  | .numVal b => if c = '$' then .error 13 else .ok (.numVal b)

/-! ## State of the var.py module -/

/-- Array payload: string arrays hold a list of strings, numeric arrays one
flat bytearray (var.py `dim_array`). -/
inductive Payload where
  | strs (l : List (List Nat))
  | nums (b : List Nat)
  deriving DecidableEq

/-- One entry of the var.py `arrays` dict: `[dimensions, lst]`. -/
structure ArrEntry where
  dims : List Int
  payload : Payload
  deriving DecidableEq

/-- One entry of the var.py `var_memory` dict:
`(name_ptr, var_ptr, str_ptr)`; `str_ptr` is -1 for numeric scalars. -/
structure VarMemEntry where
  name_ptr : Nat
  var_ptr : Nat
  str_ptr : Int
  deriving DecidableEq

/-- The module-level state of var.py.  Dicts become association lists kept in
insertion order (Python iteration order over these dicts is modelled as
insertion order). -/
structure BState where
  -- the var.py `variables` dict (`variables` is a reserved word in Lean)
  vars : List (String × List Nat)
  arrays : List (String × ArrEntry)
  array_base : Int
  var_current : Nat
  string_current : Int
  var_memory : List (String × VarMemEntry)
  array_current : Nat
  array_memory : List (String × Nat × Nat)
  deriving DecidableEq

/-- var.py: `total_mem = 60300`. -/
def total_mem : Nat := 60300

/-- var.py: `var_mem_start = 4720`. -/
def var_mem_start : Nat := 4720

/-- The state after var.py `clear_variables`. -/
def clear_state : BState :=
  { vars := [], arrays := [], array_base := 0,
    var_current := var_mem_start,
    string_current := (var_mem_start : Int) + (total_mem : Int),
    var_memory := [], array_current := 0, array_memory := [] }

/-! ## Array indexing (var.py `index_array`, `array_len`) -/

/-- One iteration of the var.py `index_array` loop:
`bigindex += area*(index[i]-array_base); area *= (dimensions[i]+1-array_base)`.
The accumulator is `(bigindex, area)`. -/
def index_step (base : Int) (p : Int × Int) (id : Int × Int) : Int × Int :=
  (p.1 + p.2 * (id.1 - base), p.2 * (id.2 + 1 - base))

/-- var.py `index_array`: linear index of a multi-index.  The Python loop
runs over `range(len(index))` reading `dimensions[i]`; callers guarantee the
two lists have equal length, which `zip` reflects. -/
def index_array (base : Int) (index dimensions : List Int) : Int :=
  ((index.zip dimensions).foldl (index_step base) (0, 1)).1

/-- var.py `array_len`: number of cells of an array. -/
def array_len (base : Int) (dimensions : List Int) : Int :=
  index_array base dimensions dimensions + 1

/-- var.py `var_size_bytes`: cell size in bytes, Illegal Function Call (5)
for a name without a valid sigil. -/
def var_size_bytes (name : String) : Except Nat Nat :=
  if isSigil (sigilOf name) then .ok (byte_size0 (sigilOf name)) else .error 5

/-! ## DIM (var.py `dim_array`) -/

/-- The per-dimension check loop of var.py `dim_array`:
`d < 0` gives Illegal Function Call (5), `d < array_base` gives Subscript
Out of Range (9); the first offending dimension decides. -/
def check_dims (base : Int) : List Int → Option Nat
  | [] => none
  | d :: ds => if d < 0 then some 5 else if d < base then some 9
               else check_dims base ds

/-- The zero-filled payload allocated by var.py `dim_array`:
`['']*size` for string arrays, `bytearray(size*var_size_bytes(name))` for
numeric arrays. -/
def dim_payload (s : Char) (base : Int) (dimensions : List Int) : Payload :=
  let size := array_len base dimensions
  if s = '$' then .strs (List.replicate size.toNat [])
  else .nums (List.replicate (size.toNat * byte_size0 s) 0)

/-- var.py `dim_array`: allocate an array; Duplicate Definition (10) if the
name exists.  The OverflowError/MemoryError-to-error-7 path of the source is
not modelled (Lean naturals do not overflow). -/
def dim_array (name0 : String) (dimensions : List Int) (st : BState) :
    Except Nat BState :=
  let name := complete_name name0
  if (st.arrays.lookup name).isSome then .error 10
  else match check_dims st.array_base dimensions with
  | some e => .error e
  | none =>
    match var_size_bytes name with
    | .error e => .error e
    | .ok vsb =>
      let size := array_len st.array_base dimensions
      let payload : Payload := dim_payload (sigilOf name) st.array_base dimensions
      -- memory model update
      let name_ptr := st.array_current
      let record_len := 1 + max 3 name.length + 3 + 2 * dimensions.length
      let array_ptr := name_ptr + record_len
      let arr_size := size.toNat * vsb
      .ok { st with
        arrays := st.arrays ++ [(name, ⟨dimensions, payload⟩)],
        array_current := st.array_current + record_len + arr_size,
        array_memory := st.array_memory ++ [(name, name_ptr, array_ptr)] }

/-! ## Index checking and auto-DIM (var.py `check_dim_array`) -/

/-- The per-component index check loop of var.py `check_dim_array`:
`index[i] < 0` gives 5; `index[i] < array_base or index[i] > dimensions[i]`
gives 9; sequential, first offender decides. -/
def check_indices (base : Int) : List Int → List Int → Option Nat
  | c :: cs, d :: ds =>
      if c < 0 then some 5
      else if c < base ∨ d < c then some 9
      else check_indices base cs ds
  | _, _ => none

/-- var.py `check_dim_array`: look up an array, auto-dimensioning a missing
one to max-index 10 on each axis (the allocation happens even when the index
then turns out to be out of range), then validate the index.  The state is
returned alongside the result because the auto-DIM side effect persists even
when an error is raised. -/
def check_dim_array (name : String) (index : List Int) (st : BState) :
    Except Nat ArrEntry × BState :=
  match st.arrays.lookup name with
  | some entry =>
      if index.length ≠ entry.dims.length then (.error 9, st)
      else match check_indices st.array_base index entry.dims with
      | some e => (.error e, st)
      | none => (.ok entry, st)
  | none =>
      let dimensions : List Int := List.replicate index.length 10
      match dim_array name dimensions st with
      | .error e => (.error e, st)
      | .ok st2 =>
        match st2.arrays.lookup name with
        | none => (.error 0, st2)  -- unreachable: dim_array just inserted it
        | some entry =>
            if index.length ≠ entry.dims.length then (.error 9, st2)
            else match check_indices st2.array_base index entry.dims with
            | some e => (.error e, st2)
            | none => (.ok entry, st2)

/-- Replace the entry of `name` in an association list (models mutating the
looked-up Python object in place). -/
def update_entry (name : String) (e : ArrEntry)
    (l : List (String × ArrEntry)) : List (String × ArrEntry) :=
  l.map (fun p => if p.1 = name then (name, e) else p)

/-! ## Array cell access (var.py `get_array`, `set_array`) -/

/-- var.py `get_array`: read one cell.  Numeric cells are the byte slice
`lst[bigindex*size:(bigindex+1)*size]`. -/
def get_array (name : String) (index : List Int) (st : BState) :
    Except Nat (Char × BValue) × BState :=
  match check_dim_array name index st with
  | (.error e, st') => (.error e, st')
  | (.ok entry, st') =>
    let bigindex := index_array st'.array_base index entry.dims
    if sigilOf name = '$' then
      match entry.payload with
      | .strs l => (.ok (sigilOf name, .strVal (l.getD bigindex.toNat [])), st')
      | .nums _ => (.error 0, st')  -- unreachable: payload matches the sigil
    else
      match var_size_bytes name with
      | .error e => (.error e, st')
      | .ok vsb =>
        match entry.payload with
        | .nums b =>
            (.ok (sigilOf name,
              .numVal ((b.drop (bigindex.toNat * vsb)).take vsb)), st')
        | .strs _ => (.error 0, st')  -- unreachable: payload matches the sigil

/-- var.py `set_array`: write one cell.  The numeric case is the Python
slice assignment `lst[bigindex*size:(bigindex+1)*size] = value`, a splice. -/
def set_array (name : String) (index : List Int) (value : BValue)
    (st : BState) : Option Nat × BState :=
  match check_dim_array name index st with
  | (.error e, st') => (some e, st')
  | (.ok entry, st') =>
    let bigindex := index_array st'.array_base index entry.dims
    match pass_type_keep (sigilOf name) value with
    | .error e => (some e, st')
    | .ok v =>
      match v, entry.payload with
      | .strVal s, .strs l =>
          let a' := update_entry name ⟨entry.dims, .strs (l.set bigindex.toNat s)⟩ st'.arrays
          (none, { st' with arrays := a' })
      | .numVal bytes, .nums b =>
          match var_size_bytes name with
          | .error e => (some e, st')
          | .ok vsb =>
            let b' := b.take (bigindex.toNat * vsb) ++ bytes
                        ++ b.drop ((bigindex.toNat + 1) * vsb)
            let a' := update_entry name ⟨entry.dims, .nums b'⟩ st'.arrays
            (none, { st' with arrays := a' })
      | _, _ => (some 0, st')  -- unreachable: payload matches the sigil

/-- var.py `base_array` (OPTION BASE): base must be 0 or 1 (Syntax Error 2
otherwise, checked first); Duplicate Definition (10) if any array exists. -/
def base_array (base : Int) (st : BState) : Except Nat BState :=
  if ¬ (base = 1 ∨ base = 0) then .error 2
  else if st.arrays ≠ [] then .error 10
  else .ok { st with array_base := base }

/-! ## Scalar variables (var.py `set_var`, `get_var`) -/

/-- Insert-or-replace in an association list, keeping insertion order
(Python dict assignment). -/
def dict_set (name : String) (v : List Nat) (l : List (String × List Nat)) :
    List (String × List Nat) :=
  if (l.lookup name).isSome then
    l.map (fun p => if p.1 = name then (name, v) else p)
  else l ++ [(name, v)]

/-- Replace the `var_memory` entry of `name` (Python dict assignment to an
existing key). -/
def varmem_set (name : String) (e : VarMemEntry)
    (l : List (String × VarMemEntry)) : List (String × VarMemEntry) :=
  l.map (fun p => if p.1 = name then (name, e) else p)

/-- var.py `set_var`: assign a scalar and update the simulated memory model.
String values are truncated to 255 bytes; a fresh name appends a record at
`var_current`; every string assignment allocates a new string-heap slot. -/
def set_var (name0 : String) (value : BValue) (st : BState) :
    Except Nat BState :=
  let name := complete_name name0
  let type_char := sigilOf name
  match pass_type_keep type_char value with
  | .error e => .error e
  | .ok v =>
    let stored : List Nat :=
      match v with
      | .strVal s => s.take 255
      | .numVal b => b
    let st1 := { st with vars := dict_set name stored st.vars }
    if (st1.var_memory.lookup name).isNone then
      let name_ptr := st1.var_current
      let var_ptr := name_ptr + max 3 name.length + 1
      let var_current' := st1.var_current + max 3 name.length + 1 + byte_size0 type_char
      if type_char = '$' then
        let string_current' := st1.string_current - (stored.length : Int)
        let str_ptr := string_current' + 1
        .ok { st1 with var_current := var_current',
                       string_current := string_current',
                       var_memory := st1.var_memory ++ [(name, ⟨name_ptr, var_ptr, str_ptr⟩)] }
      else
        .ok { st1 with var_current := var_current',
                       var_memory := st1.var_memory ++ [(name, ⟨name_ptr, var_ptr, -1⟩)] }
    else if type_char = '$' then
      match st1.var_memory.lookup name with
      | some e0 =>
        let string_current' := st1.string_current - (stored.length : Int)
        let str_ptr := string_current' + 1
        .ok { st1 with string_current := string_current',
                       var_memory := varmem_set name ⟨e0.name_ptr, e0.var_ptr, str_ptr⟩ st1.var_memory }
      | none => .error 0  -- unreachable: lookup isSome in this branch
    else .ok st1

/-- var.py `get_var`: read a scalar; a missing name yields the type's
zero/empty value and the store is not touched (the function is pure). -/
def get_var (name0 : String) (st : BState) : Char × BValue :=
  let name := complete_name name0
  match st.vars.lookup name with
  | some v =>
      if sigilOf name = '$' then (sigilOf name, .strVal v)
      else (sigilOf name, .numVal v)
  | none => (sigilOf name, null_value (sigilOf name))

/-! ## Simulated memory reads (var.py `get_name_in_memory`,
`get_var_memory`) -/

/-- Python list indexing with negative wrap-around; out-of-range reads give
a space character (the Python code would raise IndexError there; no theorem
below exercises that case). -/
def py_char (l : List Char) (i : Int) : Char :=
  if i < 0 then l.getD (l.length - (-i).toNat) ' '
  else l.getD i.toNat ' '

/-- var.py `get_name_in_memory`: the header byte of a scalar record at a
given offset: size byte, name byte 1, name byte 2 (or 0), remaining length
(or 0), then the remaining name characters re-encoded from 0xC1. -/
def get_name_in_memory (name : String) (offset : Int) : Int :=
  if offset = 0 then (byte_size0 (sigilOf name) : Int)
  else if offset = 1 then ((py_char name.data 0).toUpper.toNat : Int)
  else if offset = 2 then
    (if name.length > 2 then ((py_char name.data 1).toUpper.toNat : Int) else 0)
  else if offset = 3 then
    (if name.length > 3 then (name.length : Int) - 3 else 0)
  else ((py_char name.data (offset - 1)).toUpper.toNat : Int)
        - ('A'.toNat : Int) + 0xC1

/-- Modelled from the spec: `vartypes.value_to_uint` (vartypes.py is not in
src/); spec section 3: string value bytes are `(length, uint16 pointer)`,
so the pointer is stored as two little-endian bytes. -/
def value_to_uint (n : Int) : List Nat :=
  [(n.emod 65536).toNat % 256, (n.emod 65536).toNat / 256]

/-- The search loop of var.py `get_var_memory` over `var_memory`: find the
entry with the greatest `name_ptr` not exceeding the address.  The result is
`(name_addr, var_addr, str_addr, the_var)` with -1/None initial values. -/
def find_var_scan (address : Int) (l : List (String × VarMemEntry)) :
    Int × Int × Int × Option String :=
  l.foldl
    (fun acc e =>
      if (e.2.name_ptr : Int) ≤ address ∧ acc.1 < (e.2.name_ptr : Int) then
        ((e.2.name_ptr : Int), (e.2.var_ptr : Int), e.2.str_ptr, some e.1)
      else acc)
    (-1, -1, -1, none)

/-- The analogous search loop over `array_memory`:
result `(name_addr, arr_addr, the_arr)`. -/
def find_arr_scan (address : Int) (l : List (String × Nat × Nat)) :
    Int × Int × Option String :=
  l.foldl
    (fun acc e =>
      if (e.2.1 : Int) ≤ address ∧ acc.1 < (e.2.1 : Int) then
        ((e.2.1 : Int), (e.2.2 : Int), some e.1)
      else acc)
    (-1, -1, none)

/-- var.py `array_size_bytes`: payload size in bytes of an array, 0 for a
missing name. -/
def array_size_bytes (name : String) (st : BState) : Nat :=
  match st.arrays.lookup name with
  | none => 0
  | some e => (array_len st.array_base e.dims).toNat * byte_size0 (sigilOf name)

/-- var.py `get_bytearray`: the flat payload of a numeric array, Type
Mismatch (13) for string arrays, empty for missing names. -/
def get_bytearray (name : String) (st : BState) : Except Nat (List Nat) :=
  if sigilOf name = '$' then .error 13
  else match st.arrays.lookup name with
  | some e =>
      match e.payload with
      | .nums b => .ok b
      | .strs _ => .ok []  -- unreachable: payload matches the sigil
  | none => .ok []

/-- var.py `get_var_memory`: simulated PEEK.  NOTE (faithful to the source):
after the search loops the code uses the *loop variables* of the `for` scan
(`name`, `name_ptr`, ...) — i.e. the last entry in dict iteration order —
rather than the entry that was found (`the_var`), for everything except the
`>= var_addr` comparison and the string/array start addresses. -/
def get_var_memory (st : BState) (address : Nat) : Int :=
  if address < st.var_current then
    match find_var_scan (address : Int) st.var_memory, st.var_memory.getLast? with
    | (_, _, _, none), _ => -1
    | (_, _, _, some _), none => -1  -- unreachable: a hit needs a nonempty dict
    | (_, var_addr, str_addr, some _), some (name, e) =>
      if var_addr ≤ (address : Int) then
        let offset := (address : Int) - var_addr
        if (byte_size0 (sigilOf name) : Int) ≤ offset then -1
        else
          let stored := (st.vars.lookup name).getD []
          let var_rep : List Nat :=
            if sigilOf name = '$' then stored.length % 256 :: value_to_uint str_addr
            else stored
          (var_rep.getD offset.toNat 0 : Int)
      else
        let offset := (address : Int) - (e.name_ptr : Int)
        get_name_in_memory name offset
  else if address < st.var_current + st.array_current then
    match find_arr_scan ((address : Int) - (st.var_current : Int)) st.array_memory,
          st.array_memory.getLast? with
    | (_, _, none), _ => -1
    | (_, _, some _), none => -1  -- unreachable
    | (_, arr_addr, some _), some (name, name_ptr, _) =>
      if (st.var_current : Int) + arr_addr ≤ (address : Int) then
        let offset := (address : Int) - arr_addr - (st.var_current : Int)
        if (array_size_bytes name st : Int) ≤ offset then -1
        else if sigilOf name = '$' then 0  -- not implemented for string arrays
        else
          match get_bytearray name st with
          | .ok b => (b.getD offset.toNat 0 : Int)
          | .error _ => -1  -- unreachable: the '$' case returned above
      else
        let offset := (address : Int) - (name_ptr : Int) - (st.var_current : Int)
        if offset < (max 3 name.length : Int) + 1 then
          get_name_in_memory name offset
        else
          let offset := offset - ((max 3 name.length : Int) + 1)
          match st.arrays.lookup name with
          | none => -1  -- Python KeyError; unreachable for well-formed states
          | some entry =>
            let data_rep : List Nat :=
              value_to_uint ((array_size_bytes name st : Int) + 1
                              + 2 * entry.dims.length)
                ++ [entry.dims.length % 256]
                ++ (entry.dims.map
                      (fun d => value_to_uint (d + 1 - st.array_base))).flatten
            (data_rep.getD offset.toNat 0 : Int)
  else if st.string_current < (address : Int) then
    match (st.var_memory.foldl
      (fun acc e =>
        if e.2.str_ptr ≤ (address : Int) ∧ acc.2.1 < e.2.str_ptr then
          (((e.2.name_ptr : Int), (e.2.var_ptr : Int)), e.2.str_ptr, some e.1)
        else acc)
      ((-1, -1), -1, none)), st.var_memory.getLast? with
    | (_, _, none), _ => -1
    | (_, _, some _), none => -1  -- unreachable
    | (_, str_addr, some _), some (name, _) =>
      let offset := (address : Int) - str_addr
      (((st.vars.lookup name).getD []).getD offset.toNat 0 : Int)
  else 0

/-! ## Statement dispatch discipline (statements.py `exec_immediate`,
`exec_after_end`, `init_statements`) -/

/-- The nine statements of interest for the terminator-ordering property. -/
inductive StTok where
  | tEND | tSTOP | tSYSTEM | tNEW | tWEND | tTRON | tTROFF | tCONT | tRESET
  deriving DecidableEq, Fintype

/-- From statements.py `init_statements`: which generalised caller each of
the nine statements is bound to. `true` means `exec_after_end` (terminator
checked before the callback), `false` means `exec_immediate` (callback runs
first). -/
def after_end_discipline : StTok → Bool
  | .tEND => true      -- tk.END: partial(self.exec_after_end, ...)
  | .tSTOP => true     -- tk.STOP: partial(self.exec_after_end, ...)
  | .tSYSTEM => true   -- tk.SYSTEM: partial(self.exec_after_end, ...)
  | .tNEW => true      -- tk.NEW: partial(self.exec_after_end, ...)
  | .tWEND => true     -- tk.WEND: partial(self.exec_after_end, ...)
  | .tTRON => false    -- tk.TRON: partial(self.exec_immediate, ...)
  | .tTROFF => false   -- tk.TROFF: partial(self.exec_immediate, ...)
  | .tCONT => false    -- tk.CONT: partial(self.exec_immediate, ...)
  | .tRESET => false   -- tk.RESET: partial(self.exec_immediate, ...)

/-- Result of running one statement: whether the side-effect callback ran,
and the error raised if any. -/
structure ExecResult where
  effected : Bool
  err : Option Nat
  deriving DecidableEq

/-- `ins.require_end`: Syntax Error (2) when trailing garbage follows the
statement. `garbage` abstracts "the next token is not an end-of-statement
terminator". -/
def require_end_check (garbage : Bool) : Option Nat :=
  if garbage then some 2 else none

/-- statements.py `exec_after_end`: `ins.require_end(); callback()`. -/
def exec_after_end (garbage : Bool) : ExecResult :=
  match require_end_check garbage with
  | some e => ⟨false, some e⟩
  | none => ⟨true, none⟩

/-- statements.py `exec_immediate`: `callback()` with no terminator check of
its own. -/
def exec_immediate (_garbage : Bool) : ExecResult :=
  ⟨true, none⟩

/-- statements.py `parse_statement` restricted to the nine statements above:
dispatch through the table, then `ins.require_end()` after the handler
returns. -/
def parse_statement (t : StTok) (garbage : Bool) : ExecResult :=
  let r := if after_end_discipline t then exec_after_end garbage
           else exec_immediate garbage
  match r.err with
  | some _ => r
  | none =>
    match require_end_check garbage with
    | some e => ⟨r.effected, some e⟩
    | none => r

/-! ## ON n GOTO / GOSUB (statements.py `exec_on_jump`) -/

/-- Tokens seen by the jumpnum list parser. -/
inductive JTok where
  | uint (n : Nat)   -- tk.T_UINT line-number pointer
  | comma
  | eos              -- an end-of-statement terminator
  | other            -- anything else
  deriving DecidableEq

/-- `_parse_jumpnum`: `require_read((tk.T_UINT,))` then the 2-byte value;
Syntax Error (2) if the next token is not a line-number pointer. -/
def parse_jumpnum : List JTok → Except Nat (Nat × List JTok)
  | .uint n :: rest => .ok (n, rest)
  | _ => .error 2

/-- `ins.require_end()` over the token model. -/
def require_end_toks : List JTok → Except Nat Unit
  | .eos :: _ => .ok ()
  | [] => .ok ()
  | _ => .error 2

/-- The `onvar in (0, 255)` loop of `exec_on_jump`: parse optional jumpnums
separated by commas; when a jumpnum is missing or no comma follows, require
end-of-statement.  (`_parse_optional_jumpnum` returns -1 when the next token
is not a line-number pointer and consumes nothing.) -/
def on_check_loop : List JTok → Except Nat Unit
  | .uint _ :: .comma :: rest => on_check_loop rest
  | .uint _ :: rest => require_end_toks rest
  | rest => require_end_toks rest

/-- GOTO or GOSUB after ON. -/
inductive OnCmd where
  | goto | gosub
  deriving DecidableEq

/-- Outcome of an ON jump: fall through, GOTO jump, or GOSUB call. -/
inductive JumpResult where
  | fall
  | jump (n : Nat)
  | jumpSub (n : Nat)
  deriving DecidableEq

/-- The skip loop of `exec_on_jump` (`while skipped < onvar-1`) followed by
parsing and taking the chosen jump: `k` counts the jumpnums still to skip. -/
def on_skip_loop (cmd : OnCmd) : Nat → List JTok → Except Nat JumpResult
  | 0, ts =>
      match parse_jumpnum ts with
      | .error e => .error e
      | .ok (n, _) =>
        match cmd with
        | .goto => .ok (.jump n)
        | .gosub => .ok (.jumpSub n)
  | k + 1, ts =>
      match parse_jumpnum ts with
      | .error e => .error e
      | .ok (_, ts1) =>
        match ts1 with
        | .comma :: rest => on_skip_loop cmd k rest
        | _ =>
          match require_end_toks ts1 with
          | .error e => .error e
          | .ok _ => .ok .fall

/-- statements.py `exec_on_jump`: the computed-jump branch of ON.  The
expression value `onvar` and the already-consumed GOTO/GOSUB keyword are
parameters; `range_check(0, 255, onvar)` raises Illegal Function Call (5). -/
def exec_on_jump (onvar : Int) (cmd : OnCmd) (ts : List JTok) :
    Except Nat JumpResult :=
  if onvar < 0 ∨ 255 < onvar then .error 5
  else if onvar = 0 ∨ onvar = 255 then
    match on_check_loop ts with
    | .error e => .error e
    | .ok _ => .ok .fall
  else on_skip_loop cmd (onvar.toNat - 1) ts

/-! ## FOR loop-variable typing (statements.py `exec_for`) -/

/-- Tokens seen by the FOR parser after the loop-variable name. -/
inductive FTok where
  | eqTok               -- tk.O_EQ
  | toTok               -- tk.TO
  | stepTok             -- tk.STEP
  | expr (s : Char)     -- an expression whose value has the given sigil type
  | eos                 -- end-of-statement terminator
  | other
  deriving DecidableEq

/-- Modelled from the spec: `values.to_type` (values.py is not in src/) at
the type level; spec section 3: numeric-to-numeric conversion succeeds, any
numeric-to-string conversion raises Type Mismatch (13). -/
def to_type (target source : Char) : Except Nat Char :=
  if (target = '$') ≠ (source = '$') then .error 13 else .ok target

/-- `require_end` over FOR tokens. -/
def require_end_ftoks : List FTok → Except Nat Unit
  | .eos :: _ => .ok ()
  | [] => .ok ()
  | _ => .error 2

/-- statements.py `exec_for` after the loop-variable name has been read:
`=`, start expression coerced to the variable's type, TO, then the STR/DBL
rejection, stop expression, optional STEP, end of statement.  `vt` is the
loop variable's sigil. -/
def exec_for (vt : Char) : List FTok → Except Nat Unit
  | .eqTok :: .expr s :: ts2 =>
      (match to_type vt s with
       | .error e => .error e
       | .ok _ =>
         match ts2 with
         | .toTok :: ts3 =>
             -- only raised after the TO has been parsed
             if vt = '$' ∨ vt = '#' then .error 13
             else
               (match ts3 with
                | .expr s2 :: ts4 =>
                    (match to_type vt s2 with
                     | .error e => .error e
                     | .ok _ =>
                       match ts4 with
                       | .stepTok :: .expr s3 :: ts5 =>
                           (match to_type vt s3 with
                            | .error e => .error e
                            | .ok _ => require_end_ftoks ts5)
                       | .stepTok :: _ => .error 2
                       | _ => require_end_ftoks ts4)
                | _ => .error 2)
         | _ => .error 2)
  | .eqTok :: _ => .error 2
  | _ => .error 2

/-! ## OPTION BASE parsing (statements.py `exec_option`) -/

/-- Tokens seen by the OPTION parser. -/
inductive OTok where
  | baseWord            -- tk.W_BASE
  | lit0                -- the ASCII character '0'
  | lit1                -- the ASCII character '1'
  | exprTok (v : Int)   -- any expression token (even one evaluating to 0/1)
  | eos
  deriving DecidableEq

/-- statements.py `exec_option`: `require_read((tk.W_BASE,))`, then the
argument MUST be the literal character '0' or '1' (`require_read(('0','1'))`
raises Syntax Error 2 on anything else, in particular on expressions), then
the OPTION BASE callback (var.py `base_array`). -/
def exec_option (ts : List OTok) (st : BState) : Except Nat BState :=
  match ts with
  | .baseWord :: rest =>
      match rest with
      | .lit0 :: _ => base_array 0 st
      | .lit1 :: _ => base_array 1 st
      | _ => .error 2
  | _ => .error 2

/-! ## Keyboard buffer (keyboard.py `KeyboardBuffer.getc`) -/

/-- One ring-buffer slot: `(eascii/codepage byte string, scancode,
modifier)` as appended by keyboard.py. -/
structure Keystroke where
  cp : List Nat
  scan : Option Nat
  modMask : Option Nat
  deriving DecidableEq

/-- The keyboard.py `KeyboardBuffer` state. -/
structure KeyboardBuffer where
  buffer : List Keystroke
  ring_length : Nat
  start : Nat
  expansion_vessel : List Nat
  key_replace : List (List Nat)
  deriving DecidableEq

/-- Modelled from the spec: the `FUNCTION_KEY` table of keyboard.py maps the
function-key eascii codes (defined in the missing base/eascii.py; the IBM
two-byte codes `\0\x3B`..`\0\x44` for F1..F10 and `\0\x85`, `\0\x86` for
F11, F12) to macro slots 0..11. -/
def FUNCTION_KEY : List (List Nat × Nat) :=
  [([0, 0x3B], 0), ([0, 0x3C], 1), ([0, 0x3D], 2), ([0, 0x3E], 3),
   ([0, 0x3F], 4), ([0, 0x40], 5), ([0, 0x41], 6), ([0, 0x42], 7),
   ([0, 0x43], 8), ([0, 0x44], 9), ([0, 0x85], 10), ([0, 0x86], 11)]

/-- keyboard.py `KeyboardBuffer.getc`: drain the expansion vessel first;
else pop the ring head and bump `start`; on a function-key code with
expansion enabled, replace the vessel with the macro body and return its
first byte, or the raw code when the body is empty. -/
def getc (expand : Bool) (kb : KeyboardBuffer) :
    List Nat × KeyboardBuffer :=
  match kb.expansion_vessel with
  | v :: vs => ([v], { kb with expansion_vessel := vs })
  | [] =>
    let c : List Nat := match kb.buffer with
      | [] => []
      | k :: _ => k.cp
    let kb1 := { kb with buffer := kb.buffer.tail }
    let kb2 := if c ≠ [] then
        { kb1 with start := (kb1.start + 1) % kb1.ring_length }
      else kb1
    match expand, FUNCTION_KEY.lookup c with
    | false, _ => (c, kb2)
    | true, none => (c, kb2)
    | true, some i =>
      match kb2.key_replace.getD i [] with
      | [] => (c, { kb2 with expansion_vessel := [] })
      | b :: bs => ([b], { kb2 with expansion_vessel := bs })

/-! ## Modifier state (keyboard.py `TOGGLE`, `MODIFIER`,
`Keyboard._key_down`) -/

/-- Scancodes: the eight modifier/toggle keys are distinguished; all other
scancodes (values from the missing base/scancode.py) are `other`. -/
inductive Scancode where
  | LSHIFT | RSHIFT | CTRL | ALT
  | INSERT | CAPSLOCK | NUMLOCK | SCROLLOCK
  | other (n : Nat)
  deriving DecidableEq

/-- keyboard.py `MODIFIER` dict with `.get(m, 0)` semantics:
`ALT: 0x8, CTRL: 0x4, LSHIFT: 0x2, RSHIFT: 0x1`. -/
def MODIFIER_get : Scancode → Nat
  | .ALT => 0x8
  | .CTRL => 0x4
  | .LSHIFT => 0x2
  | .RSHIFT => 0x1
  | _ => 0

/-- keyboard.py `TOGGLE` dict:
`INSERT: 0x80, CAPSLOCK: 0x40, NUMLOCK: 0x20, SCROLLOCK: 0x10`. -/
def TOGGLE_get : Scancode → Option Nat
  | .INSERT => some 0x80
  | .CAPSLOCK => some 0x40
  | .NUMLOCK => some 0x20
  | .SCROLLOCK => some 0x10
  | _ => none

/-- The modifier-state update of keyboard.py `Keyboard._key_down`: clear the
four nonsticky bits (`mod &= ~(CTRL|ALT|LSHIFT|RSHIFT)`, i.e. clear the low
nibble), OR in the modifier bits of the event's modifier scancodes, then XOR
the toggle bit when the pressed key is a toggle key. -/
def key_down_mod (md : Nat) (scan : Option Scancode)
    (mods : List Scancode) : Nat :=
  let m1 := 16 * (md / 16)
  let m2 := mods.foldl (fun a s => a ||| MODIFIER_get s) m1
  match scan with
  | some sc =>
      match TOGGLE_get sc with
      | some t => m2 ^^^ t
      | none => m2
  | none => m2

/-! ## Shared helper lemmas -/

instance exceptDecidableEq {ε α : Type} [DecidableEq ε] [DecidableEq α] :
    DecidableEq (Except ε α) := fun a b =>
  match a, b with
  | .ok x, .ok y =>
      if h : x = y then isTrue (by rw [h])
      else isFalse (fun hc => h (Except.ok.inj hc))
  | .error x, .error y =>
      if h : x = y then isTrue (by rw [h])
      else isFalse (fun hc => h (Except.error.inj hc))
  | .ok _, .error _ => isFalse (fun hc => Except.noConfusion hc)
  | .error _, .ok _ => isFalse (fun hc => Except.noConfusion hc)

theorem lookup_append_single_none {β : Type} (l : List (String × β))
    (n : String) (x : β) (h : l.lookup n = none) :
    (l ++ [(n, x)]).lookup n = some x := by
  induction l with
  | nil => simp [List.lookup]
  | cons p rest ih =>
      rcases p with ⟨k, b⟩
      simp only [List.cons_append, List.lookup] at h ⊢
      cases hk : (n == k) with
      | true => rw [hk] at h; exact Option.noConfusion h
      | false => rw [hk] at h; exact ih h

theorem lookup_none_forall {β : Type} (l : List (String × β)) (n : String)
    (h : l.lookup n = none) : ∀ p ∈ l, p.1 ≠ n := by
  induction l with
  | nil => simp
  | cons p rest ih =>
      intro q hq
      rcases p with ⟨k, b⟩
      simp only [List.lookup] at h
      cases hk : (n == k) with
      | true => rw [hk] at h; exact Option.noConfusion h
      | false =>
          rw [hk] at h
          rcases List.mem_cons.mp hq with rfl | hq
          · intro hc
            have hkc : k = n := hc
            rw [hkc] at hk
            simp at hk
          · exact ih h q hq

/-! ## Claim C3 -/

/-- C3: for END, STOP, SYSTEM, NEW and WEND the end-of-statement terminator
is checked before the statement's callback runs, so with trailing garbage a
Syntax Error (2) is raised and the side effect does not occur; for TRON,
TROFF, CONT and RESET the callback runs before trailing syntax is checked,
so with trailing garbage the side effect has occurred when the Syntax Error
is raised. -/
theorem c3_terminator_check_order :
    ∀ t : StTok,
      (parse_statement t true).err = some 2 ∧
      ((parse_statement t true).effected = true ↔
        t = .tTRON ∨ t = .tTROFF ∨ t = .tCONT ∨ t = .tRESET) ∧
      (parse_statement t false).err = none ∧
      (parse_statement t false).effected = true := by
  decide

/-! ## Claim C6 -/

/-- The modifier table exactly as claim C6 states it (LSHIFT=1, RSHIFT=2):
defined only to exhibit the discrepancy with the source table. -/
def MODIFIER_claimed : Scancode → Nat
  | .ALT => 8
  | .CTRL => 4
  | .LSHIFT => 1
  | .RSHIFT => 2
  | _ => 0

/-- The key-down modifier update as claim C6 states it, differing from the
source only in the claimed LSHIFT/RSHIFT bit values. -/
def key_down_mod_claimed (md : Nat) (scan : Option Scancode)
    (mods : List Scancode) : Nat :=
  let m1 := 16 * (md / 16)
  let m2 := mods.foldl (fun a s => a ||| MODIFIER_claimed s) m1
  match scan with
  | some sc =>
      match TOGGLE_get sc with
      | some t => m2 ^^^ t
      | none => m2
  | none => m2

/-- C6 counterexample: a key-down event whose modifier list holds LSHIFT
produces mask 2 in the code, not the mask 1 the claim's table (LSHIFT=1)
predicts; the code has LSHIFT=0x2 and RSHIFT=0x1. -/
theorem c6_counterexample :
    key_down_mod 0 none [Scancode.LSHIFT] = 2 ∧
    key_down_mod_claimed 0 none [Scancode.LSHIFT] = 1 ∧
    key_down_mod 0 none [Scancode.LSHIFT] ≠
      key_down_mod_claimed 0 none [Scancode.LSHIFT] := by
  decide

/-- The amended modifier bit table: `LSHIFT=2, RSHIFT=1, CTRL=4, ALT=8`
(the nonsticky low nibble). -/
def amended_mask_table : List (Scancode × Nat) :=
  [(.LSHIFT, 2), (.RSHIFT, 1), (.CTRL, 4), (.ALT, 8)]

/-- The amended toggle bit table:
`SCROLLLOCK=0x10, NUMLOCK=0x20, CAPSLOCK=0x40, INSERT=0x80`. -/
def amended_toggle_table : List (Scancode × Nat) :=
  [(.SCROLLOCK, 0x10), (.NUMLOCK, 0x20), (.CAPSLOCK, 0x40), (.INSERT, 0x80)]

/-- The key-down modifier update as amended: the low nibble (the four
nonsticky modifiers) is cleared, the mask-table bits of the event's modifier
scancodes are OR'd in, and a toggle key XORs its toggle bit. -/
def key_down_mod_amended (md : Nat) (scan : Option Scancode)
    (mods : List Scancode) : Nat :=
  let m1 := 16 * (md / 16)
  let m2 := mods.foldl
    (fun a s => a ||| ((amended_mask_table.lookup s).getD 0)) m1
  match scan with
  | some sc =>
      match amended_toggle_table.lookup sc with
      | some t => m2 ^^^ t
      | none => m2
  | none => m2

theorem modifier_tables_agree (s : Scancode) :
    MODIFIER_get s = (amended_mask_table.lookup s).getD 0 := by
  cases s <;> rfl

theorem toggle_tables_agree (s : Scancode) :
    TOGGLE_get s = amended_toggle_table.lookup s := by
  cases s <;> rfl

/-- C6 amended: on every key-down the modifier state is maintained as a
bit-mask with LSHIFT=2, RSHIFT=1 (not LSHIFT=1, RSHIFT=2 as claimed),
CTRL=4, ALT=8, SCROLLLOCK=0x10, NUMLOCK=0x20, CAPSLOCK=0x40, INSERT=0x80:
the low nibble is cleared, the bits of the event's modifier scancodes are
OR'd in, and a pressed toggle key XORs its toggle bit. -/
theorem c6_key_down_modifier_mask (md : Nat) (scan : Option Scancode)
    (mods : List Scancode) :
    key_down_mod md scan mods = key_down_mod_amended md scan mods := by
  have hfold : ∀ (l : List Scancode) (a : Nat),
      l.foldl (fun a s => a ||| MODIFIER_get s) a =
      l.foldl (fun a s => a ||| ((amended_mask_table.lookup s).getD 0)) a := by
    intro l
    induction l with
    | nil => intro a; rfl
    | cons s rest ih =>
        intro a
        simp only [List.foldl_cons, modifier_tables_agree, ih]
  simp only [key_down_mod, key_down_mod_amended, hfold, toggle_tables_agree]

/-! ## Claim C7 -/

/-- C7 counterexample: `FOR A$ = 1` (string loop variable, numeric start
expression, TO missing) raises Type Mismatch (13) at the start-expression
coercion, not the Syntax Error (2) the claim requires for a missing TO. -/
theorem c7_counterexample :
    exec_for '$' [FTok.eqTok, FTok.expr '%'] = .error 13 ∧
    exec_for '$' [FTok.eqTok, FTok.expr '%'] ≠ .error 2 := by
  decide

/-- C7 amended: for a FOR statement whose loop variable completes to string
or double type, provided the start expression coerces to the variable's
type without error (string start for a string variable, numeric start for a
double variable), Type Mismatch is raised only after TO has been consumed:
with TO missing a Syntax Error (2) is raised instead, and with TO present
Type Mismatch (13) is raised whatever follows (before the stop expression
is parsed). -/
theorem c7_for_str_dbl_after_to (vt s : Char)
    (hvt : vt = '$' ∨ vt = '#')
    (hs : (vt = '$') = (s = '$')) :
    (∀ rest, exec_for vt (.eqTok :: .expr s :: .toTok :: rest) = .error 13) ∧
    (∀ ts2, (∀ rest, ts2 ≠ FTok.toTok :: rest) →
      exec_for vt (.eqTok :: .expr s :: ts2) = .error 2) := by
  have hto : to_type vt s = .ok vt := by
    unfold to_type
    rw [if_neg]
    simp [hs]
  constructor
  · intro rest
    simp only [exec_for, hto]
    rw [if_pos hvt]
  · intro ts2 hts2
    simp only [exec_for, hto]

/-- C7 witness: concrete instances of both conjuncts of the amended
theorem. -/
theorem c7_witness :
    exec_for '$' [FTok.eqTok, FTok.expr '$', FTok.toTok] = .error 13 ∧
    exec_for '$' [FTok.eqTok, FTok.expr '$', FTok.other] = .error 2 := by
  refine ⟨(c7_for_str_dbl_after_to '$' '$' (Or.inl rfl) rfl).1 [], ?_⟩
  exact (c7_for_str_dbl_after_to '$' '$' (Or.inl rfl) rfl).2 [FTok.other]
    (fun rest h => FTok.noConfusion (List.cons.inj h).1)

/-! ## More shared lemmas: names and dictionaries -/

theorem complete_name_of_sigil (name : String)
    (h : isSigil (sigilOf name)) : complete_name name = name := by
  unfold complete_name
  rw [if_pos h]

theorem lookup_map_replace (n : String) (v : List Nat)
    (l : List (String × List Nat)) (h : (l.lookup n).isSome) :
    ((l.map fun p => if p.1 = n then (n, v) else p).lookup n) = some v := by
  induction l with
  | nil => simp [List.lookup] at h
  | cons p rest ih =>
      rcases p with ⟨k, b⟩
      by_cases hk : k = n
      · subst hk
        simp only [List.map_cons]
        simp [List.lookup]
      · simp only [List.lookup] at h
        have hbeq : (n == k) = false := by
          simp [BEq.beq]
          exact fun hc => hk hc.symm
        rw [hbeq] at h
        simp only [List.map_cons]
        rw [if_neg (by simpa using hk)]
        simp only [List.lookup, hbeq]
        exact ih h

theorem lookup_dict_set (n : String) (v : List Nat)
    (l : List (String × List Nat)) : (dict_set n v l).lookup n = some v := by
  unfold dict_set
  by_cases h : (l.lookup n).isSome
  · rw [if_pos h]
    exact lookup_map_replace n v l h
  · rw [if_neg h]
    exact lookup_append_single_none l n v (Option.not_isSome_iff_eq_none.mp h)

/-! ## Claim C9 -/

/-- C9 counterexample: on the cleared interpreter state, reading the scalar
`A` (completed to `A!`) returns the single-precision zero, but the variable
does not exist afterwards: `get_var` returns only a value and no updated
state (the source never assigns into `variables` on a read), so the store
after the read is still `clear_state`, in which `A!` is absent — against
the claim that the variable exists in the store after its first read. -/
theorem c9_counterexample :
    get_var "A" clear_state = ('!', BValue.numVal [0, 0, 0, 0]) ∧
    clear_state.vars.lookup "A!" = none := by
  exact ⟨rfl, rfl⟩

/-- C9 amended: a scalar variable is created on its first assignment only;
a read of a never-assigned scalar returns the zero value of the name's type
(the empty string for `$`) and does not create the variable (`get_var`
returns a value without touching the store), while an assignment does
create it. -/
theorem c9_scalar_first_read_write (name : String) (st st' : BState)
    (v : BValue)
    (habsent : st.vars.lookup (complete_name name) = none)
    (hset : set_var name v st = .ok st') :
    get_var name st =
      (sigilOf (complete_name name), null_value (sigilOf (complete_name name))) ∧
    (st'.vars.lookup (complete_name name)).isSome := by
  constructor
  · unfold get_var
    dsimp only
    rw [habsent]
  · unfold set_var at hset
    dsimp only at hset
    rcases hp : pass_type_keep (sigilOf (complete_name name)) v with e | v'
    · rw [hp] at hset
      exact Except.noConfusion hset
    · rw [hp] at hset
      dsimp only at hset
      split at hset
      · split at hset
        · injection hset with h
          rw [← h]
          simp [lookup_dict_set]
        · injection hset with h
          rw [← h]
          simp [lookup_dict_set]
      · split at hset
        · split at hset
          · injection hset with h
            rw [← h]
            simp [lookup_dict_set]
          · exact Except.noConfusion hset
        · injection hset with h
          rw [← h]
          simp [lookup_dict_set]

/-- C9 witness: concrete instance of the amended theorem: reading `B` on
the cleared state gives the typed zero, and assigning it creates it. -/
theorem c9_witness :
    clear_state.vars.lookup (complete_name "B") = none ∧
    get_var "B" clear_state =
      (sigilOf (complete_name "B"), null_value (sigilOf (complete_name "B"))) := by
  refine ⟨by decide, ?_⟩
  refine (c9_scalar_first_read_write "B" clear_state ?st ?v (by decide) ?hset).1
  case st => exact { clear_state with
    vars := [("B!", [0, 0, 0, 0])],
    var_current := 4728,
    var_memory := [("B!", ⟨4720, 4724, -1⟩)] }
  case v => exact .numVal [0, 0, 0, 0]
  case hset => decide

/-! ## Claim C8 -/

/-- C8: OPTION BASE 0 executed twice in succession while no arrays exist
leaves the state unchanged (the second execution is a no-op); executing
OPTION BASE (with either literal) while an array exists raises Duplicate
Definition (10); and the argument must be the literal character '0' or '1'
(an expression token is rejected with Syntax Error 2 whatever its value). -/
theorem c8_option_base (st st2 : BState) (v : Int)
    (rest rest2 rest3 : List OTok)
    (hempty : st.arrays = [])
    (hsome : st2.arrays ≠ []) :
    exec_option (.baseWord :: .lit0 :: rest) st = .ok { st with array_base := 0 } ∧
    exec_option (.baseWord :: .lit0 :: rest) { st with array_base := 0 } =
      .ok { st with array_base := 0 } ∧
    exec_option (.baseWord :: .lit0 :: rest2) st2 = .error 10 ∧
    exec_option (.baseWord :: .lit1 :: rest2) st2 = .error 10 ∧
    exec_option (.baseWord :: .exprTok v :: rest3) st = .error 2 := by
  refine ⟨?_, ?_, ?_, ?_, rfl⟩ <;>
    simp [exec_option, base_array, hempty, hsome]

/-- C8 witness: the theorem applied to the cleared state and to a state
holding one array. -/
theorem c8_witness :
    exec_option [OTok.baseWord, OTok.lit0] clear_state =
      .ok { clear_state with array_base := 0 } ∧
    exec_option [OTok.baseWord, OTok.lit0]
      { clear_state with arrays := [("A%", ⟨[1], .nums [0, 0, 0, 0]⟩)] } =
      .error 10 := by
  have h := c8_option_base clear_state
    { clear_state with arrays := [("A%", ⟨[1], .nums [0, 0, 0, 0]⟩)] }
    0 [] [] [] rfl (by simp)
  exact ⟨h.1, h.2.2.1⟩

/-! ## Claim C10 -/

theorem check_dims_base01 (base : Int) (hbase : base = 0 ∨ base = 1)
    (k : Nat) : check_dims base (List.replicate k 10) = none := by
  induction k with
  | zero => rfl
  | succ k ih =>
      simp only [List.replicate_succ, check_dims]
      rw [if_neg (by norm_num), if_neg (by rcases hbase with h | h <;> omega)]
      exact ih

theorem check_indices_first_bad (base : Int) (idx : List Int)
    (hpos : ∀ c ∈ idx, 0 ≤ c)
    (hbad : ∃ c ∈ idx, 10 < c ∨ c < base) :
    check_indices base idx (List.replicate idx.length 10) = some 9 := by
  induction idx with
  | nil => simp at hbad
  | cons c cs ih =>
      simp only [List.length_cons, List.replicate_succ, check_indices]
      rw [if_neg (by have := hpos c (by simp); omega)]
      by_cases hc : c < base ∨ (10 : Int) < c
      · rw [if_pos hc]
      · rw [if_neg hc]
        refine ih (fun x hx => hpos x (by simp [hx])) ?_
        rcases hbad with ⟨x, hx, hxbad⟩
        rcases List.mem_cons.mp hx with rfl | hx
        · exact absurd (by tauto) hc
        · exact ⟨x, hx, hxbad⟩

/-- Evaluation of `dim_array` on a fresh name with valid dimensions. -/
theorem dim_array_fresh (name : String) (dims : List Int) (st : BState)
    (hsig : isSigil (sigilOf name))
    (hnone : st.arrays.lookup name = none)
    (hdims : check_dims st.array_base dims = none) :
    dim_array name dims st = .ok { st with
      arrays := st.arrays ++
        [(name, ⟨dims, dim_payload (sigilOf name) st.array_base dims⟩)],
      array_current := st.array_current
        + (1 + max 3 name.length + 3 + 2 * dims.length)
        + (array_len st.array_base dims).toNat * byte_size0 (sigilOf name),
      array_memory := st.array_memory ++ [(name, st.array_current,
        st.array_current + (1 + max 3 name.length + 3 + 2 * dims.length))] } := by
  unfold dim_array
  rw [complete_name_of_sigil name hsig]
  dsimp only
  rw [hnone, hdims]
  unfold var_size_bytes
  rw [if_pos hsig]
  rfl

/-- C10: an access to an undeclared array with a k-element index list first
auto-dimensions it as a k-dimensional array with max-index 10 on every axis,
even when the supplied index is out of range; Subscript Out of Range (9) is
raised only after the allocation, so the array exists afterwards and a
subsequent DIM of the same name raises Duplicate Definition (10). -/
theorem c10_autodim_before_subscript_error (name : String) (index : List Int)
    (st : BState)
    (hsig : isSigil (sigilOf name))
    (hnone : st.arrays.lookup name = none)
    (hbase : st.array_base = 0 ∨ st.array_base = 1)
    (hpos : ∀ c ∈ index, 0 ≤ c)
    (hbad : ∃ c ∈ index, 10 < c ∨ c < st.array_base) :
    (check_dim_array name index st).1 = .error 9 ∧
    (∃ e, (check_dim_array name index st).2.arrays.lookup name = some e ∧
      e.dims = List.replicate index.length 10) ∧
    (∀ dims2, dim_array name dims2 (check_dim_array name index st).2 =
      .error 10) := by
  have hfresh := dim_array_fresh name (List.replicate index.length 10) st hsig
    hnone (check_dims_base01 st.array_base hbase index.length)
  have hcheck : check_indices st.array_base index
      (List.replicate index.length 10) = some 9 :=
    check_indices_first_bad st.array_base index hpos hbad
  have hlook : ∀ x : ArrEntry, (st.arrays ++ [(name, x)]).lookup name = some x :=
    fun x => lookup_append_single_none st.arrays name x hnone
  have heval : check_dim_array name index st =
      (.error 9, { st with
        arrays := st.arrays ++ [(name, ⟨List.replicate index.length 10,
          dim_payload (sigilOf name) st.array_base (List.replicate index.length 10)⟩)],
        array_current := st.array_current
          + (1 + max 3 name.length + 3 + 2 * (List.replicate index.length (10 : Int)).length)
          + (array_len st.array_base (List.replicate index.length 10)).toNat
            * byte_size0 (sigilOf name),
        array_memory := st.array_memory ++ [(name, st.array_current,
          st.array_current + (1 + max 3 name.length + 3
            + 2 * (List.replicate index.length (10 : Int)).length))] }) := by
    unfold check_dim_array
    rw [hnone]
    dsimp only
    rw [hfresh]
    dsimp only
    rw [hlook]
    dsimp only
    rw [if_neg (by simp), hcheck]
  rw [heval]
  dsimp only
  refine ⟨rfl, ⟨_, hlook _, rfl⟩, ?_⟩
  intro dims2
  unfold dim_array
  rw [complete_name_of_sigil name hsig]
  dsimp only
  rw [hlook]
  rfl

/-- C10 witness: accessing undeclared `A!` at index 11 on the cleared state
allocates `A!` with dimensions `[10]`, raises error 9, and a following DIM
raises error 10. -/
theorem c10_witness :
    (check_dim_array "A!" [11] clear_state).1 = .error 9 ∧
    (∃ e, (check_dim_array "A!" [11] clear_state).2.arrays.lookup "A!" = some e ∧
      e.dims = List.replicate 1 10) ∧
    dim_array "A!" [5] (check_dim_array "A!" [11] clear_state).2 = .error 10 := by
  have h := c10_autodim_before_subscript_error "A!" [11] clear_state
    (by decide) rfl (Or.inl rfl) (by decide)
    ⟨11, by simp, by norm_num⟩
  exact ⟨h.1, h.2.1, h.2.2 [5]⟩

/-! ## Claim C4 -/

/-- C4: characterisation of `KeyboardBuffer.getc`.  The expansion vessel is
drained first (its first byte is removed and returned, and the ring —
`buffer` and `start` — is untouched); otherwise the ring head is popped and
`start` is bumped; if the popped byte is a function-key eascii code and
expansion is enabled, the vessel contents are replaced by the current macro
body and its first byte is returned, except that an empty macro body yields
the raw function-key code; the vessel is refilled only on ring reads (a
vessel read only drops the vessel head), so macro-body bytes are never
themselves expanded. -/
theorem c4_getc_characterisation (kb : KeyboardBuffer) (expand : Bool) :
    (∀ v vs, kb.expansion_vessel = v :: vs →
      getc expand kb = ([v], { kb with expansion_vessel := vs })) ∧
    (kb.expansion_vessel = [] → kb.buffer = [] → getc expand kb = ([], kb)) ∧
    (∀ k ks, kb.expansion_vessel = [] → kb.buffer = k :: ks → k.cp ≠ [] →
      ((expand = false ∨ FUNCTION_KEY.lookup k.cp = none →
        getc expand kb =
          (k.cp, { kb with buffer := ks,
                           start := (kb.start + 1) % kb.ring_length })) ∧
       (∀ i, expand = true → FUNCTION_KEY.lookup k.cp = some i →
         (kb.key_replace.getD i [] = [] →
           getc expand kb =
             (k.cp, { kb with buffer := ks,
                              start := (kb.start + 1) % kb.ring_length,
                              expansion_vessel := [] })) ∧
         (∀ b bs, kb.key_replace.getD i [] = b :: bs →
           getc expand kb =
             ([b], { kb with buffer := ks,
                             start := (kb.start + 1) % kb.ring_length,
                             expansion_vessel := bs }))))) := by
  obtain ⟨buf, rl, s0, ev, kr⟩ := kb
  refine ⟨?_, ?_, ?_⟩
  · intro v vs hv
    dsimp only at hv
    subst hv
    rfl
  · intro hv hb
    dsimp only at hv hb
    subst hv
    subst hb
    cases expand <;> rfl
  · intro k ks hv hb hcp
    dsimp only at hv hb
    subst hv
    subst hb
    unfold getc
    dsimp only
    rw [if_pos hcp]
    constructor
    · rintro (he | hn)
      · subst he
        rfl
      · rw [hn]
        cases expand <;> rfl
    · intro i he hl
      subst he
      rw [hl]
      dsimp only
      constructor
      · intro hz
        rw [hz]
        rfl
      · intro b bs hbs
        rw [hbs]
        rfl

/-- C4 witness: pressing F1 with macro `AB` set returns `A` and leaves `B`
in the vessel; the witness instantiates the macro-expansion branch of the
characterisation. -/
theorem c4_witness :
    getc true
      { buffer := [⟨[0, 0x3B], none, none⟩], ring_length := 15, start := 0,
        expansion_vessel := [], key_replace := [[65, 66]] } =
    ([65],
      { buffer := [], ring_length := 15, start := 1,
        expansion_vessel := [66], key_replace := [[65, 66]] }) := by
  have h := (c4_getc_characterisation
    { buffer := [⟨[0, 0x3B], none, none⟩], ring_length := 15, start := 0,
      expansion_vessel := [], key_replace := [[65, 66]] } true).2.2
    ⟨[0, 0x3B], none, none⟩ [] rfl rfl (by decide)
  exact (h.2 0 rfl (by decide)).2 65 [66] rfl

/-! ## Claim C5 -/

/-- A comma-separated jumpnum list as tokens. -/
def encodeJumps : List Nat → List JTok
  | [] => []
  | [n] => [.uint n]
  | n :: rest => .uint n :: .comma :: encodeJumps rest

theorem on_check_loop_wf (l : List Nat) :
    on_check_loop (encodeJumps l ++ [.eos]) = .ok () := by
  induction l with
  | nil => rfl
  | cons n rest ih =>
      cases rest with
      | nil => rfl
      | cons m rest2 =>
          simpa only [encodeJumps, List.cons_append, on_check_loop] using ih

theorem on_check_loop_bad (l : List Nat) (rest : List JTok) :
    on_check_loop (encodeJumps l ++ .comma :: .other :: rest) = .error 2 := by
  induction l with
  | nil => rfl
  | cons n tl ih =>
      cases tl with
      | nil => rfl
      | cons m tl2 =>
          simpa only [encodeJumps, List.cons_append, on_check_loop] using ih

theorem on_skip_loop_wf (cmd : OnCmd) (l : List Nat) (k : Nat)
    (h : k + 1 ≤ l.length) :
    on_skip_loop cmd k (encodeJumps l ++ [.eos]) =
      .ok (match cmd with
           | .goto => .jump (l.getD k 0)
           | .gosub => .jumpSub (l.getD k 0)) := by
  induction k generalizing l with
  | zero =>
      cases l with
      | nil => simp at h
      | cons m tl =>
          cases tl with
          | nil => cases cmd <;> rfl
          | cons m2 tl2 => cases cmd <;> rfl
  | succ k ih =>
      cases l with
      | nil => simp at h
      | cons m tl =>
          cases tl with
          | nil => simp at h
          | cons m2 tl2 =>
              have := ih (m2 :: tl2) (by simpa using h)
              simpa only [encodeJumps, List.cons_append, on_skip_loop,
                parse_jumpnum, List.getD_cons_succ] using this

theorem on_skip_loop_short_bad (cmd : OnCmd) (l : List Nat) (k : Nat)
    (rest : List JTok) (h : l.length + 1 ≤ k) :
    on_skip_loop cmd k (encodeJumps l ++ .comma :: .other :: rest) =
      .error 2 := by
  induction l generalizing k with
  | nil =>
      rcases k with _ | k
      · simp at h
      · rfl
  | cons m tl ih =>
      rcases k with _ | k
      · simp at h
      · cases tl with
        | nil =>
            rcases k with _ | k
            · simp at h
            · rfl
        | cons m2 tl2 =>
            have := ih k (by simpa using h)
            simpa only [encodeJumps, List.cons_append, on_skip_loop,
              parse_jumpnum] using this

/-- C5: the ON n GOTO/GOSUB computed jump.  An expression value outside
[0,255] raises Illegal Function Call (5); value 0 or 255 parses and
validates the whole jumpnum list but takes no jump (trailing garbage after
the list still raises Syntax Error 2); otherwise the first n-1 jumpnums are
skipped, the n-th is consumed and control transfers to it (GOTO jump or
GOSUB call); and a malformed entry among the skipped jumpnums raises Syntax
Error 2 even though it is not jumped to. -/
theorem c5_on_jump_semantics :
    (∀ (onvar : Int) (cmd : OnCmd) (ts : List JTok),
       onvar < 0 ∨ 255 < onvar → exec_on_jump onvar cmd ts = .error 5) ∧
    (∀ (onvar : Int) (cmd : OnCmd) (l : List Nat),
       onvar = 0 ∨ onvar = 255 →
       exec_on_jump onvar cmd (encodeJumps l ++ [.eos]) = .ok .fall) ∧
    (∀ (onvar : Int) (cmd : OnCmd) (l : List Nat) (rest : List JTok),
       onvar = 0 ∨ onvar = 255 →
       exec_on_jump onvar cmd (encodeJumps l ++ .comma :: .other :: rest) =
         .error 2) ∧
    (∀ (n : Nat) (l : List Nat),
       1 ≤ n → n ≤ 254 → n ≤ l.length →
       exec_on_jump (n : Int) .goto (encodeJumps l ++ [.eos]) =
         .ok (.jump (l.getD (n - 1) 0)) ∧
       exec_on_jump (n : Int) .gosub (encodeJumps l ++ [.eos]) =
         .ok (.jumpSub (l.getD (n - 1) 0))) ∧
    (∀ (n : Nat) (cmd : OnCmd) (l : List Nat) (rest : List JTok),
       l.length + 2 ≤ n → n ≤ 254 →
       exec_on_jump (n : Int) cmd (encodeJumps l ++ .comma :: .other :: rest) =
         .error 2) := by
  have hskip : ∀ (n : Nat) (cmd : OnCmd) (ts : List JTok),
      1 ≤ n → n ≤ 254 →
      exec_on_jump (n : Int) cmd ts = on_skip_loop cmd (n - 1) ts := by
    intro n cmd ts h1 h2
    unfold exec_on_jump
    rw [if_neg (by omega), if_neg (by omega)]
    rfl
  refine ⟨?_, ?_, ?_, ?_, ?_⟩
  · intro onvar cmd ts hr
    unfold exec_on_jump
    rw [if_pos hr]
  · intro onvar cmd l hv
    unfold exec_on_jump
    rw [if_neg (by omega), if_pos hv, on_check_loop_wf]
  · intro onvar cmd l rest hv
    unfold exec_on_jump
    rw [if_neg (by omega), if_pos hv, on_check_loop_bad]
  · intro n l h1 h2 hl
    constructor <;>
      rw [hskip n _ _ h1 h2, on_skip_loop_wf _ l (n - 1) (by omega)]
  · intro n cmd l rest hlen h2
    rw [hskip n cmd _ (by omega) h2,
      on_skip_loop_short_bad cmd l (n - 1) rest (by omega)]

/-- C5 witness: concrete instances of every part: out-of-range value,
value 0 falling through a valid list, value 0 with a malformed list,
`ON 2 GOTO 100,200,300` jumping to 200, and `ON 4 GOTO 100,XYZ` raising a
Syntax Error from the malformed skipped entry. -/
theorem c5_witness :
    exec_on_jump 300 .goto [] = .error 5 ∧
    exec_on_jump 0 .goto (encodeJumps [100, 200] ++ [.eos]) = .ok .fall ∧
    exec_on_jump 255 .goto (encodeJumps [100] ++ [.comma, .other]) = .error 2 ∧
    exec_on_jump 2 .goto (encodeJumps [100, 200, 300] ++ [.eos]) =
      .ok (.jump 200) ∧
    exec_on_jump 2 .gosub (encodeJumps [100, 200, 300] ++ [.eos]) =
      .ok (.jumpSub 200) ∧
    exec_on_jump 4 .goto (encodeJumps [100] ++ [.comma, .other]) = .error 2 := by
  refine ⟨?_, ?_, ?_, ?_, ?_, ?_⟩
  · exact c5_on_jump_semantics.1 300 .goto [] (by omega)
  · exact c5_on_jump_semantics.2.1 0 .goto [100, 200] (Or.inl rfl)
  · exact c5_on_jump_semantics.2.2.1 255 .goto [100] [] (Or.inr rfl)
  · exact (c5_on_jump_semantics.2.2.2.1 2 [100, 200, 300]
      (by omega) (by omega) (by simp)).1
  · exact (c5_on_jump_semantics.2.2.2.1 2 [100, 200, 300]
      (by omega) (by omega) (by simp)).2
  · exact c5_on_jump_semantics.2.2.2.2 4 .goto [100] []
      (by simp) (by omega)

/-! ## Claim C1: mixed-radix index arithmetic -/

/-- The `index_array` accumulator loop in Horner form. -/
def horner_pairs (base : Int) : List (Int × Int) → Int
  | [] => 0
  | p :: rest => (p.1 - base) + (p.2 + 1 - base) * horner_pairs base rest

theorem foldl_index_step (base : Int) (l : List (Int × Int)) :
    ∀ a m : Int,
      (l.foldl (index_step base) (a, m)).1 = a + m * horner_pairs base l := by
  induction l with
  | nil => intro a m; simp [horner_pairs]
  | cons p rest ih =>
      intro a m
      simp only [List.foldl_cons, index_step, horner_pairs]
      rw [ih]
      ring

theorem index_array_eq_horner (base : Int) (idx dims : List Int) :
    index_array base idx dims = horner_pairs base (idx.zip dims) := by
  unfold index_array
  rw [foldl_index_step]
  ring

/-- Product of the per-axis widths `d + 1 - base`. -/
def widths_prod (base : Int) (dims : List Int) : Int :=
  (dims.map (fun d => d + 1 - base)).prod

theorem widths_prod_cons (base d : Int) (rest : List Int) :
    widths_prod base (d :: rest) = (d + 1 - base) * widths_prod base rest := by
  simp [widths_prod]

theorem horner_self (base : Int) (dims : List Int) :
    horner_pairs base (dims.zip dims) = widths_prod base dims - 1 := by
  induction dims with
  | nil => simp [horner_pairs, widths_prod]
  | cons d rest ih =>
      rw [show (d :: rest).zip (d :: rest) = (d, d) :: rest.zip rest from rfl]
      simp only [horner_pairs, widths_prod_cons]
      rw [ih]
      ring

theorem array_len_eq_widths (base : Int) (dims : List Int) :
    array_len base dims = widths_prod base dims := by
  unfold array_len
  rw [index_array_eq_horner, horner_self]
  ring

/-- A multi-index is in range: componentwise `base ≤ idx[i] ≤ dims[i]`
(which also forces equal lengths). -/
def InRange (base : Int) (idx dims : List Int) : Prop :=
  List.Forall₂ (fun c d => base ≤ c ∧ c ≤ d) idx dims

theorem widths_prod_pos (base : Int) (dims : List Int)
    (h : ∀ d ∈ dims, base ≤ d) : 0 < widths_prod base dims := by
  induction dims with
  | nil => simp [widths_prod]
  | cons d rest ih =>
      have h1 : (0 : Int) < d + 1 - base := by
        have := h d (by simp); omega
      have h2 : 0 < widths_prod base rest := ih (fun x hx => h x (by simp [hx]))
      simpa only [widths_prod, List.map_cons, List.prod_cons] using
        mul_pos h1 h2

theorem horner_bounds (base : Int) {idx dims : List Int}
    (h : InRange base idx dims) :
    0 ≤ horner_pairs base (idx.zip dims) ∧
    horner_pairs base (idx.zip dims) < widths_prod base dims := by
  induction h with
  | nil => simp [horner_pairs, widths_prod]
  | @cons c d cs ds hp hrest ih =>
      rw [show (c :: cs).zip (d :: ds) = (c, d) :: cs.zip ds from rfl]
      simp only [horner_pairs, widths_prod_cons]
      obtain ⟨hcb, hcd⟩ := hp
      obtain ⟨ih0, ih1⟩ := ih
      have hw : (0 : Int) < d + 1 - base := by omega
      constructor
      · have h3 : 0 ≤ (d + 1 - base) * horner_pairs base (cs.zip ds) :=
          mul_nonneg (by omega) ih0
        omega
      · have h1 : horner_pairs base (cs.zip ds) ≤ widths_prod base ds - 1 := by
          omega
        have h2 : (d + 1 - base) * horner_pairs base (cs.zip ds) ≤
            (d + 1 - base) * (widths_prod base ds - 1) :=
          mul_le_mul_of_nonneg_left h1 (by omega)
        have h3 : (d + 1 - base) * (widths_prod base ds - 1) =
            (d + 1 - base) * widths_prod base ds - (d + 1 - base) := by ring
        linarith

theorem horner_inj (base : Int) : ∀ (dims idx1 idx2 : List Int),
    InRange base idx1 dims → InRange base idx2 dims →
    horner_pairs base (idx1.zip dims) = horner_pairs base (idx2.zip dims) →
    idx1 = idx2 := by
  intro dims
  induction dims with
  | nil =>
      intro idx1 idx2 h1 h2 _
      cases h1
      cases h2
      rfl
  | cons d ds ih =>
      intro idx1 idx2 h1 h2 heq
      rcases idx1 with _ | ⟨c1, cs1⟩
      · exact absurd h1 (by intro h; cases h)
      rcases idx2 with _ | ⟨c2, cs2⟩
      · exact absurd h2 (by intro h; cases h)
      obtain ⟨⟨h1b, h1d⟩, h1rest⟩ := List.forall₂_cons.mp h1
      obtain ⟨⟨h2b, h2d⟩, h2rest⟩ := List.forall₂_cons.mp h2
      rw [show (c1 :: cs1).zip (d :: ds) = (c1, d) :: cs1.zip ds from rfl,
        show (c2 :: cs2).zip (d :: ds) = (c2, d) :: cs2.zip ds from rfl] at heq
      simp only [horner_pairs] at heq
      have hb1 := horner_bounds base h1rest
      have hb2 := horner_bounds base h2rest
      have hw : (0 : Int) < d + 1 - base := by omega
      have hdiff : c1 - c2 =
          (d + 1 - base) * (horner_pairs base (cs2.zip ds)
            - horner_pairs base (cs1.zip ds)) := by
        linear_combination heq
      have h5 : (d + 1 - base) * (horner_pairs base (cs2.zip ds)
          - horner_pairs base (cs1.zip ds)) < (d + 1 - base) * 1 := by
        rw [← hdiff, mul_one]
        omega
      have h6 : (d + 1 - base) * (-1 : Int) < (d + 1 - base) *
          (horner_pairs base (cs2.zip ds) - horner_pairs base (cs1.zip ds)) := by
        rw [← hdiff]
        have : (d + 1 - base) * (-1 : Int) = -(d + 1 - base) := by ring
        rw [this]
        omega
      have h7 := lt_of_mul_lt_mul_left h5 (le_of_lt hw)
      have h8 := lt_of_mul_lt_mul_left h6 (le_of_lt hw)
      have hH : horner_pairs base (cs1.zip ds) = horner_pairs base (cs2.zip ds) := by
        omega
      have hc : c1 = c2 := by
        rw [hH] at hdiff
        simp at hdiff
        omega
      rw [hc, ih cs1 cs2 h1rest h2rest hH]

/-! ## Claim C1: byte-slice lemmas for the flat numeric payload -/

theorem slice_set_get_same (l b : List Nat) (i v : Nat)
    (hb : b.length = v) (hle : (i + 1) * v ≤ l.length) :
    ((l.take (i * v) ++ b ++ l.drop ((i + 1) * v)).drop (i * v)).take v = b := by
  have hiv : i * v ≤ l.length := le_trans (by nlinarith) hle
  have h1 : (l.take (i * v)).length = i * v := by
    rw [List.length_take]; omega
  have h2 : (l.take (i * v) ++ (b ++ l.drop ((i + 1) * v))).drop
      ((l.take (i * v)).length) = b ++ l.drop ((i + 1) * v) :=
    List.drop_left _ _
  rw [h1] at h2
  have h3 : (b ++ l.drop ((i + 1) * v)).take b.length = b := List.take_left _ _
  rw [hb] at h3
  rw [List.append_assoc, h2, h3]

theorem slice_set_get_other (l b : List Nat) (i j v : Nat)
    (hb : b.length = v) (hi : (i + 1) * v ≤ l.length)
    (_hj : (j + 1) * v ≤ l.length) (hne : j ≠ i) :
    ((l.take (i * v) ++ b ++ l.drop ((i + 1) * v)).drop (j * v)).take v =
    (l.drop (j * v)).take v := by
  have hiv : i * v ≤ l.length := le_trans (by nlinarith) hi
  have hA : (l.take (i * v)).length = i * v := by
    rw [List.length_take]; omega
  have e1 : (j + 1) * v = j * v + v := Nat.succ_mul j v
  have e2 : (i + 1) * v = i * v + v := Nat.succ_mul i v
  rcases Nat.lt_or_ge j i with hlt | hge
  · -- the read window lies strictly before the written window
    have hjv : (j + 1) * v ≤ i * v := Nat.mul_le_mul_right v hlt
    rw [List.append_assoc, List.drop_append_eq_append_drop, hA]
    have hz : j * v - i * v = 0 := by omega
    rw [hz, List.drop_zero]
    rw [List.take_append_of_le_length (by
      rw [List.length_drop, hA]
      omega)]
    rw [List.drop_take, List.take_take, min_eq_left (by omega)]
  · -- the read window lies strictly after the written window
    have hij : i < j := lt_of_le_of_ne hge (fun h => hne h.symm)
    have hjv : (i + 1) * v ≤ j * v := Nat.mul_le_mul_right v hij
    have hAB : (l.take (i * v) ++ b).length = (i + 1) * v := by
      rw [List.length_append, hA, hb, Nat.succ_mul]
    rw [List.drop_append_eq_append_drop, hAB]
    rw [List.drop_eq_nil_of_le (le_of_eq hAB |>.trans hjv), List.nil_append]
    rw [List.drop_drop]
    congr 2
    omega

theorem slice_replicate_zero (n i v : Nat) (h : (i + 1) * v ≤ n) :
    ((List.replicate n (0 : Nat)).drop (i * v)).take v =
      List.replicate v 0 := by
  have e : (i + 1) * v = i * v + v := Nat.succ_mul i v
  rw [List.drop_replicate, List.take_replicate, min_eq_left (by omega)]

theorem getD_set_self (l : List (List Nat)) (i : Nat) (s : List Nat)
    (h : i < l.length) : (l.set i s).getD i [] = s := by
  rw [List.getD_eq_getElem?_getD, List.getElem?_set_self h]
  rfl

theorem getD_set_ne (l : List (List Nat)) (i j : Nat) (s : List Nat)
    (hne : i ≠ j) : (l.set i s).getD j [] = l.getD j [] := by
  rw [List.getD_eq_getElem?_getD, List.getElem?_set_ne hne,
    ← List.getD_eq_getElem?_getD]

theorem getD_replicate_nil (n j : Nat) :
    (List.replicate n ([] : List Nat)).getD j [] = [] := by
  rw [List.getD_eq_getElem?_getD, List.getElem?_replicate]
  by_cases h : j < n <;> simp [h]

/-! ## Claim C1: cell-level view of the payload -/

/-- Well-typedness of a value for a cell of the given sigil type: strings
for `$`, byte strings of the type's width for numeric sigils. -/
def TypeOk (s : Char) : BValue → Prop
  | .strVal _ => s = '$'
  | .numVal b => s ≠ '$' ∧ b.length = byte_size0 s

/-- The never-written cell content: empty string or the type's zero bytes. -/
def zero_cell (s : Char) : BValue :=
  if s = '$' then .strVal [] else .numVal (List.replicate (byte_size0 s) 0)

/-- Reading cell `bi` of a payload, as `get_array` does. -/
def read_cell (s : Char) (P : Payload) (bi : Nat) : BValue :=
  match P with
  | .strs l => .strVal (l.getD bi [])
  | .nums b => .numVal ((b.drop (bi * byte_size0 s)).take (byte_size0 s))

/-- Writing cell `bi` of a payload, as `set_array` does. -/
def write_cell (s : Char) (P : Payload) (bi : Nat) (v : BValue) : Payload :=
  match P, v with
  | .strs l, .strVal str => .strs (l.set bi str)
  | .nums b, .numVal bytes =>
      .nums (b.take (bi * byte_size0 s) ++ bytes
        ++ b.drop ((bi + 1) * byte_size0 s))
  | p, _ => p

/-- Well-formedness of a payload for an array of `size` cells. -/
def payload_wf (s : Char) (size : Nat) : Payload → Prop
  | .strs l => s = '$' ∧ l.length = size
  | .nums b => s ≠ '$' ∧ b.length = size * byte_size0 s

theorem write_cell_wf (s : Char) (size : Nat) (P : Payload) (bi : Nat)
    (v : BValue) (hwf : payload_wf s size P) (hty : TypeOk s v)
    (hbi : bi < size) : payload_wf s size (write_cell s P bi v) := by
  cases P with
  | strs l =>
      cases v with
      | strVal str => exact ⟨hwf.1, by simp [hwf.2]⟩
      | numVal b => exact absurd hwf.1 hty.1
  | nums b =>
      cases v with
      | strVal str => exact absurd hty hwf.1
      | numVal bytes =>
          refine ⟨hwf.1, ?_⟩
          simp only [write_cell, List.length_append, List.length_take,
            List.length_drop, hwf.2, hty.2]
          have h1 : (bi + 1) * byte_size0 s ≤ size * byte_size0 s :=
            Nat.mul_le_mul_right _ hbi
          have h2 : bi * byte_size0 s ≤ size * byte_size0 s := by nlinarith
          have h3 : (bi + 1) * byte_size0 s
              = bi * byte_size0 s + byte_size0 s := by rw [Nat.succ_mul]
          omega

theorem read_write_cell_same (s : Char) (size : Nat) (P : Payload) (bi : Nat)
    (v : BValue) (hwf : payload_wf s size P) (hty : TypeOk s v)
    (hbi : bi < size) : read_cell s (write_cell s P bi v) bi = v := by
  cases P with
  | strs l =>
      cases v with
      | strVal str =>
          simp only [write_cell, read_cell]
          rw [getD_set_self l bi str (by rw [hwf.2]; exact hbi)]
      | numVal b => exact absurd hwf.1 hty.1
  | nums b =>
      cases v with
      | strVal str => exact absurd hty hwf.1
      | numVal bytes =>
          simp only [write_cell, read_cell]
          rw [slice_set_get_same b bytes bi (byte_size0 s) hty.2
            (by rw [hwf.2]; exact Nat.mul_le_mul_right _ hbi)]

theorem read_write_cell_other (s : Char) (size : Nat) (P : Payload)
    (bi bj : Nat) (v : BValue) (hwf : payload_wf s size P) (hty : TypeOk s v)
    (hbi : bi < size) (hbj : bj < size) (hne : bj ≠ bi) :
    read_cell s (write_cell s P bi v) bj = read_cell s P bj := by
  cases P with
  | strs l =>
      cases v with
      | strVal str =>
          simp only [write_cell, read_cell]
          rw [getD_set_ne l bi bj str (fun h => hne h.symm)]
      | numVal b => exact absurd hwf.1 hty.1
  | nums b =>
      cases v with
      | strVal str => exact absurd hty hwf.1
      | numVal bytes =>
          simp only [write_cell, read_cell]
          rw [slice_set_get_other b bytes bi bj (byte_size0 s) hty.2
            (by rw [hwf.2]; exact Nat.mul_le_mul_right _ hbi)
            (by rw [hwf.2]; exact Nat.mul_le_mul_right _ hbj) hne]

theorem dim_payload_wf (s : Char) (base : Int) (dims : List Int) :
    payload_wf s (widths_prod base dims).toNat (dim_payload s base dims) := by
  unfold dim_payload
  by_cases h : s = '$'
  · rw [if_pos h]
    exact ⟨h, by simp [array_len_eq_widths]⟩
  · rw [if_neg h]
    exact ⟨h, by simp [array_len_eq_widths]⟩

theorem read_dim_payload (s : Char) (base : Int) (dims : List Int) (bi : Nat)
    (hbi : bi < (widths_prod base dims).toNat) :
    read_cell s (dim_payload s base dims) bi = zero_cell s := by
  unfold dim_payload zero_cell
  by_cases h : s = '$'
  · rw [if_pos h, if_pos h]
    simp only [read_cell]
    rw [getD_replicate_nil]
  · rw [if_neg h, if_neg h]
    simp only [read_cell]
    rw [slice_replicate_zero _ bi _ (by
      rw [array_len_eq_widths]
      exact Nat.mul_le_mul_right _ hbi)]

/-! ## Claim C1: evaluation of the array operations under the invariant -/

theorem check_indices_none_of_inrange (base : Int) (hb0 : 0 ≤ base)
    {idx dims : List Int} (hin : InRange base idx dims) :
    check_indices base idx dims = none := by
  induction hin with
  | nil => rfl
  | @cons c d cs ds hp hrest ih =>
      simp only [check_indices]
      rw [if_neg (by omega), if_neg (by push_neg; exact ⟨hp.1, hp.2⟩)]
      exact ih

theorem check_dims_none_ge (base : Int) :
    ∀ dims : List Int, check_dims base dims = none → ∀ d ∈ dims, base ≤ d := by
  intro dims
  induction dims with
  | nil => intro _ d hd; simp at hd
  | cons d0 rest ih =>
      intro h d hd
      simp only [check_dims] at h
      by_cases h1 : d0 < 0
      · rw [if_pos h1] at h; exact Option.noConfusion h
      · rw [if_neg h1] at h
        by_cases h2 : d0 < base
        · rw [if_pos h2] at h; exact Option.noConfusion h
        · rw [if_neg h2] at h
          rcases List.mem_cons.mp hd with rfl | hd
          · omega
          · exact ih h d hd

theorem check_dim_array_found (name : String) (idx : List Int) (st : BState)
    (entry : ArrEntry) (hlook : st.arrays.lookup name = some entry)
    (hb0 : 0 ≤ st.array_base)
    (hin : InRange st.array_base idx entry.dims) :
    check_dim_array name idx st = (.ok entry, st) := by
  unfold check_dim_array
  rw [hlook]
  dsimp only
  rw [if_neg (by simp [List.Forall₂.length_eq hin]),
    check_indices_none_of_inrange st.array_base hb0 hin]

theorem get_array_found (name : String) (idx : List Int) (st : BState)
    (dims : List Int) (P : Payload) (size : Nat)
    (hsig : isSigil (sigilOf name))
    (hlook : st.arrays.lookup name = some ⟨dims, P⟩)
    (hb0 : 0 ≤ st.array_base)
    (hin : InRange st.array_base idx dims)
    (hwf : payload_wf (sigilOf name) size P) :
    get_array name idx st =
      (.ok (sigilOf name,
        read_cell (sigilOf name) P
          (index_array st.array_base idx dims).toNat), st) := by
  unfold get_array
  rw [check_dim_array_found name idx st ⟨dims, P⟩ hlook hb0 hin]
  dsimp only
  by_cases h : sigilOf name = '$'
  · rw [if_pos h]
    cases P with
    | strs l => rfl
    | nums b => exact absurd h hwf.1
  · rw [if_neg h]
    unfold var_size_bytes
    rw [if_pos hsig]
    cases P with
    | strs l => exact absurd hwf.1 h
    | nums b => rfl

theorem set_array_found (name : String) (idx : List Int) (v : BValue)
    (st : BState) (dims : List Int) (P : Payload) (size : Nat)
    (hsig : isSigil (sigilOf name))
    (hlook : st.arrays.lookup name = some ⟨dims, P⟩)
    (hb0 : 0 ≤ st.array_base)
    (hin : InRange st.array_base idx dims)
    (hwf : payload_wf (sigilOf name) size P)
    (hty : TypeOk (sigilOf name) v) :
    set_array name idx v st = (none,
      { st with arrays := (update_entry name ⟨dims, write_cell (sigilOf name) P (index_array st.array_base idx dims).toNat v⟩ st.arrays) }) := by
  unfold set_array
  rw [check_dim_array_found name idx st ⟨dims, P⟩ hlook hb0 hin]
  dsimp only
  cases v with
  | strVal str =>
      have h : sigilOf name = '$' := hty
      rw [show pass_type_keep (sigilOf name) (.strVal str) = .ok (.strVal str) by
        unfold pass_type_keep; dsimp only; rw [if_pos h]]
      dsimp only
      cases P with
      | strs l => simp only [write_cell]
      | nums b => exact absurd h hwf.1
  | numVal bytes =>
      obtain ⟨hns, _⟩ := hty
      rw [show pass_type_keep (sigilOf name) (.numVal bytes) = .ok (.numVal bytes) by
        unfold pass_type_keep; dsimp only; rw [if_neg hns]]
      dsimp only
      cases P with
      | strs l => exact absurd hwf.1 hns
      | nums b =>
          unfold var_size_bytes
          rw [if_pos hsig]
          simp only [write_cell]

theorem map_replace_id (pre : List (String × ArrEntry)) (name : String)
    (e' : ArrEntry) (hpre : pre.lookup name = none) :
    pre.map (fun p => if p.1 = name then (name, e') else p) = pre := by
  induction pre with
  | nil => rfl
  | cons p rest ih =>
      rcases p with ⟨k, b⟩
      simp only [List.lookup] at hpre
      have hk : (name == k) = false := by
        cases hkk : (name == k)
        · rfl
        · rw [hkk] at hpre; exact Option.noConfusion hpre
      have hk' : k ≠ name := by
        intro hc
        rw [hc] at hk
        simp at hk
      rw [hk] at hpre
      simp only [List.map_cons]
      rw [if_neg hk', ih hpre]

theorem update_entry_append (pre : List (String × ArrEntry)) (name : String)
    (e e' : ArrEntry) (hpre : pre.lookup name = none) :
    update_entry name e' (pre ++ [(name, e)]) = pre ++ [(name, e')] := by
  unfold update_entry
  rw [List.map_append, map_replace_id pre name e' hpre]
  simp

/-- The most recent write to a given index in a list of set operations. -/
def last_write (ops : List (List Int × BValue)) (idx : List Int) :
    Option BValue :=
  ((ops.reverse).find? (fun op => op.1 == idx)).map Prod.snd

theorem last_write_append (ops : List (List Int × BValue))
    (op : List Int × BValue) (idx : List Int) :
    last_write (ops ++ [op]) idx =
      if op.1 = idx then some op.2 else last_write ops idx := by
  unfold last_write
  rw [List.reverse_append]
  simp only [List.reverse_cons, List.reverse_nil, List.nil_append,
    List.singleton_append, List.find?]
  by_cases h : op.1 = idx
  · have hb : (op.1 == idx) = true := by simp [h]
    rw [hb, if_pos h]
    rfl
  · have hb : (op.1 == idx) = false := by simp [h]
    rw [hb, if_neg h]
    rfl

/-- A sequence of `set_array` operations applied in order. -/
def apply_sets (name : String) (ops : List (List Int × BValue))
    (st : BState) : BState :=
  ops.foldl (fun s op => (set_array name op.1 op.2 s).2) st

theorem apply_sets_append_single (name : String)
    (ops : List (List Int × BValue)) (op : List Int × BValue) (st : BState) :
    apply_sets name (ops ++ [op]) st =
      (set_array name op.1 op.2 (apply_sets name ops st)).2 := by
  unfold apply_sets
  rw [List.foldl_append]
  rfl

theorem horner_toNat_lt (base : Int) {idx dims : List Int}
    (hin : InRange base idx dims) :
    (horner_pairs base (idx.zip dims)).toNat < (widths_prod base dims).toNat := by
  obtain ⟨h0, h1⟩ := horner_bounds base hin
  rw [Int.toNat_lt_toNat (lt_of_le_of_lt h0 h1)]
  exact h1

theorem horner_toNat_ne (base : Int) {dims idx1 idx2 : List Int}
    (h1 : InRange base idx1 dims) (h2 : InRange base idx2 dims)
    (hne : idx1 ≠ idx2) :
    (horner_pairs base (idx1.zip dims)).toNat ≠
      (horner_pairs base (idx2.zip dims)).toNat := by
  intro hc
  apply hne
  apply horner_inj base dims idx1 idx2 h1 h2
  have g1 := (horner_bounds base h1).1
  have g2 := (horner_bounds base h2).1
  omega

theorem apply_sets_spec (name : String) (base : Int) (dims : List Int)
    (pre : List (String × ArrEntry)) (st1 : BState)
    (hsig : isSigil (sigilOf name))
    (hb : base = 0 ∨ base = 1)
    (hpre : pre.lookup name = none)
    (harr1 : st1.arrays = pre ++
      [(name, ⟨dims, dim_payload (sigilOf name) base dims⟩)])
    (hbase1 : st1.array_base = base) :
    ∀ ops, (∀ op ∈ ops, InRange base op.1 dims ∧ TypeOk (sigilOf name) op.2) →
    ∃ P, (apply_sets name ops st1).arrays = pre ++ [(name, ⟨dims, P⟩)] ∧
      (apply_sets name ops st1).array_base = base ∧
      payload_wf (sigilOf name) (widths_prod base dims).toNat P ∧
      ∀ idx, InRange base idx dims →
        read_cell (sigilOf name) P (horner_pairs base (idx.zip dims)).toNat =
          (last_write ops idx).getD (zero_cell (sigilOf name)) := by
  intro ops
  induction ops using List.reverseRecOn with
  | nil =>
      intro _
      refine ⟨dim_payload (sigilOf name) base dims, harr1, hbase1,
        dim_payload_wf _ _ _, ?_⟩
      intro idx hidx
      rw [read_dim_payload _ _ _ _ (horner_toNat_lt base hidx)]
      rfl
  | append_singleton ops op ih =>
      intro hops
      obtain ⟨P, harr, hbase, hwf, hread⟩ := ih (fun o ho => hops o (by
        simp only [List.mem_append]
        exact Or.inl ho))
      obtain ⟨hinop, htyop⟩ := hops op (by simp)
      have hlook : (apply_sets name ops st1).arrays.lookup name =
          some ⟨dims, P⟩ := by
        rw [harr]
        exact lookup_append_single_none _ _ _ hpre
      have hb0 : 0 ≤ (apply_sets name ops st1).array_base := by
        rw [hbase]
        rcases hb with h | h <;> omega
      have hset := set_array_found name op.1 op.2 (apply_sets name ops st1)
        dims P ((widths_prod base dims).toNat) hsig hlook hb0
        (by rw [hbase]; exact hinop) hwf htyop
      rw [apply_sets_append_single, hset]
      dsimp only
      rw [hbase, index_array_eq_horner]
      refine ⟨write_cell (sigilOf name) P
          (horner_pairs base (op.1.zip dims)).toNat op.2, ?_, ?_, ?_, ?_⟩
      · rw [harr, update_entry_append pre name _ _ hpre]
      · rfl
      · exact write_cell_wf _ _ P _ op.2 hwf htyop (horner_toNat_lt base hinop)
      · intro idx hidx
        rw [last_write_append]
        by_cases heq : op.1 = idx
        · rw [if_pos heq]
          rw [heq]
          rw [read_write_cell_same _ ((widths_prod base dims).toNat) P _ op.2
            hwf htyop (horner_toNat_lt base (heq ▸ hinop))]
          rfl
        · rw [if_neg heq]
          rw [read_write_cell_other _ ((widths_prod base dims).toNat) P _ _
            op.2 hwf htyop (horner_toNat_lt base hinop)
            (horner_toNat_lt base hidx)
            (horner_toNat_ne base hidx hinop (fun hc => heq hc.symm))]
          exact hread idx hidx

/-- C1: for every array dimensioned by DIM with dimensions `dims` and every
in-range index tuple (each component between the array base and the
per-axis max index, with as many components as dimensions), reading the
cell returns exactly the bytes (for numeric arrays) or the string (for
string arrays) most recently written to that same cell by a set-array
operation, and the type's zero bytes (or the empty string) if the cell was
never written. -/
theorem c1_array_read_returns_last_write (name : String) (base : Int)
    (dims : List Int) (st0 st1 : BState)
    (ops : List (List Int × BValue)) (idx : List Int)
    (hsig : isSigil (sigilOf name))
    (hb : base = 0 ∨ base = 1)
    (hbase0 : st0.array_base = base)
    (hdim : dim_array name dims st0 = .ok st1)
    (hops : ∀ op ∈ ops, InRange base op.1 dims ∧ TypeOk (sigilOf name) op.2)
    (hidx : InRange base idx dims) :
    get_array name idx (apply_sets name ops st1) =
      (.ok (sigilOf name,
          (last_write ops idx).getD (zero_cell (sigilOf name))),
        apply_sets name ops st1) := by
  have hnone : st0.arrays.lookup name = none := by
    rcases hl : st0.arrays.lookup name with _ | entry
    · rfl
    · exfalso
      unfold dim_array at hdim
      rw [complete_name_of_sigil name hsig] at hdim
      dsimp only at hdim
      rw [hl] at hdim
      simp at hdim
  have hcdn : check_dims st0.array_base dims = none := by
    rcases hc : check_dims st0.array_base dims with _ | e
    · rfl
    · exfalso
      unfold dim_array at hdim
      rw [complete_name_of_sigil name hsig] at hdim
      dsimp only at hdim
      rw [hnone, hc] at hdim
      simp at hdim
  have hfresh := dim_array_fresh name dims st0 hsig hnone hcdn
  rw [hfresh] at hdim
  injection hdim with hst1
  have harr1 : st1.arrays = st0.arrays ++
      [(name, ⟨dims, dim_payload (sigilOf name) base dims⟩)] := by
    rw [← hst1, hbase0]
  have hbase1 : st1.array_base = base := by
    rw [← hst1]
    exact hbase0
  obtain ⟨P, harrF, hbaseF, hwfF, hreadF⟩ :=
    apply_sets_spec name base dims st0.arrays st1 hsig hb hnone harr1 hbase1
      ops hops
  have hlookF : (apply_sets name ops st1).arrays.lookup name =
      some ⟨dims, P⟩ := by
    rw [harrF]
    exact lookup_append_single_none _ _ _ hnone
  rw [get_array_found name idx _ dims P ((widths_prod base dims).toNat) hsig
    hlookF (by rw [hbaseF]; rcases hb with h | h <;> omega)
    (by rw [hbaseF]; exact hidx) hwfF]
  rw [hbaseF, index_array_eq_horner, hreadF idx hidx]

/-- The state after `DIM A%(2)` on the cleared state; used by the C1
witness. -/
def c1_state1 : BState :=
  { clear_state with
    arrays := [("A%", ⟨[2], .nums (List.replicate 6 0)⟩)],
    array_current := 15,
    array_memory := [("A%", 0, 9)] }

/-- C1 witness: after `DIM A%(2)` and the single write `A%(1) = [5,0]`,
reading `A%(1)` returns `[5,0]`. -/
theorem c1_witness :
    get_array "A%" [1]
      (apply_sets "A%" [([1], BValue.numVal [5, 0])] c1_state1) =
    (.ok ('%', BValue.numVal [5, 0]),
      apply_sets "A%" [([1], BValue.numVal [5, 0])] c1_state1) := by
  have hin : InRange 0 [1] [2] :=
    List.Forall₂.cons ⟨by norm_num, by norm_num⟩ List.Forall₂.nil
  have h := c1_array_read_returns_last_write "A%" 0 [2] clear_state c1_state1
    [([1], BValue.numVal [5, 0])] [1] (by decide) (Or.inl rfl) rfl (by decide)
    (by
      intro op hop
      rw [List.mem_singleton] at hop
      subst hop
      exact ⟨hin, by decide, by decide⟩)
    hin
  rw [h]
  rfl

/-! ## Claim C2: the scalar record layout in simulated memory -/

/-- Byte length of one scalar record: the name header
(`max(3, len(name)) + 1` bytes) followed by the value bytes. -/
def record_len (name : String) : Nat :=
  max 3 name.length + 1 + byte_size0 (sigilOf name)

/-- The scalar records of `var_memory` laid out consecutively from address
`a`, exactly as `set_var` allocates them. -/
def chain_from (a : Nat) : List (String × VarMemEntry) → Prop
  | [] => True
  | (n, e) :: rest =>
      e.name_ptr = a ∧ e.var_ptr = a + max 3 n.length + 1 ∧
      chain_from (e.var_ptr + byte_size0 (sigilOf n)) rest

/-- The first free address after the records of the list. -/
def chain_end (a : Nat) : List (String × VarMemEntry) → Nat
  | [] => a
  | (n, _) :: rest => chain_end (a + record_len n) rest

/-- Well-formedness of the scalar side of a state: records consecutive from
`var_mem_start`, `var_current` one past the last record, and every recorded
name bound in the variables dict to a value of the right size. -/
def ScalarWF (st : BState) : Prop :=
  chain_from var_mem_start st.var_memory ∧
  st.var_current = chain_end var_mem_start st.var_memory ∧
  ∀ p ∈ st.var_memory, isSigil (sigilOf p.1) ∧ 1 ≤ p.1.length ∧
    ∃ v, st.vars.lookup p.1 = some v ∧
      (if sigilOf p.1 = '$' then v.length ≤ 255
       else v.length = byte_size0 (sigilOf p.1))

theorem chain_from_le (l : List (String × VarMemEntry)) :
    ∀ a, chain_from a l → ∀ p ∈ l, a ≤ p.2.name_ptr := by
  induction l with
  | nil => intro a _ p hp; simp at hp
  | cons q rest ih =>
      intro a hc p hp
      rcases q with ⟨n, e⟩
      obtain ⟨h1, h2, h3⟩ := hc
      rcases List.mem_cons.mp hp with rfl | hp
      · dsimp only
        omega
      · have := ih (e.var_ptr + byte_size0 (sigilOf n)) h3 p hp
        omega

theorem chain_last_facts (l : List (String × VarMemEntry)) :
    ∀ (a : Nat) (n : String) (e : VarMemEntry),
    chain_from a l → l.getLast? = some (n, e) →
    e.var_ptr = e.name_ptr + max 3 n.length + 1 ∧
    chain_end a l = e.var_ptr + byte_size0 (sigilOf n) ∧
    a ≤ e.name_ptr := by
  induction l with
  | nil => intro a n e _ hl; exact Option.noConfusion hl
  | cons q rest ih =>
      intro a n e hc hl
      rcases q with ⟨n0, e0⟩
      obtain ⟨h1, h2, h3⟩ := hc
      cases rest with
      | nil =>
          have heq : (n0, e0) = (n, e) := by
            simpa [List.getLast?] using hl
          obtain ⟨rfl, rfl⟩ := Prod.mk.inj heq
          refine ⟨by omega, ?_, by omega⟩
          simp only [chain_end, record_len]
          omega
      | cons q2 rest2 =>
          have hl2 : (q2 :: rest2).getLast? = some (n, e) := by
            simpa [List.getLast?_cons_cons] using hl
          obtain ⟨f1, f2, f3⟩ := ih (e0.var_ptr + byte_size0 (sigilOf n0)) n e
            h3 hl2
          refine ⟨f1, ?_, by omega⟩
          simp only [chain_end]
          rw [show a + record_len n0 = e0.var_ptr + byte_size0 (sigilOf n0) by
            simp only [record_len]; omega]
          exact f2

theorem find_var_scan_last (addr : Int)
    (l : List (String × VarMemEntry)) :
    ∀ (a : Nat) (acc : Int × Int × Int × Option String) (n : String)
      (e : VarMemEntry),
    chain_from a l → l.getLast? = some (n, e) →
    (e.name_ptr : Int) ≤ addr → acc.1 < (a : Int) →
    l.foldl (fun acc x =>
        if (x.2.name_ptr : Int) ≤ addr ∧ acc.1 < (x.2.name_ptr : Int) then
          ((x.2.name_ptr : Int), (x.2.var_ptr : Int), x.2.str_ptr, some x.1)
        else acc) acc =
      ((e.name_ptr : Int), (e.var_ptr : Int), e.str_ptr, some n) := by
  induction l with
  | nil => intro a acc n e _ hl; exact Option.noConfusion hl
  | cons q rest ih =>
      intro a acc n e hc hl hle hacc
      rcases q with ⟨n0, e0⟩
      obtain ⟨h1, h2, h3⟩ := hc
      cases rest with
      | nil =>
          have heq : (n0, e0) = (n, e) := by
            simpa [List.getLast?] using hl
          obtain ⟨rfl, rfl⟩ := Prod.mk.inj heq
          simp only [List.foldl_cons, List.foldl_nil]
          rw [if_pos ⟨hle, by omega⟩]
      | cons q2 rest2 =>
          have hl2 : (q2 :: rest2).getLast? = some (n, e) := by
            simpa [List.getLast?_cons_cons] using hl
          have hmem : (n, e) ∈ q2 :: rest2 := by
            have hgl := List.getLast?_eq_getLast (q2 :: rest2) (by simp)
            rw [hgl] at hl2
            injection hl2 with h
            rw [← h]
            exact List.getLast_mem _
          have hge : e0.var_ptr + byte_size0 (sigilOf n0) ≤ e.name_ptr :=
            chain_from_le (q2 :: rest2) _ h3 (n, e) hmem
          have h0le : (e0.name_ptr : Int) ≤ addr := by omega
          rw [List.foldl_cons]
          dsimp only
          rw [if_pos ⟨h0le, by omega⟩]
          exact ih (e0.var_ptr + byte_size0 (sigilOf n0))
            ((e0.name_ptr : Int), (e0.var_ptr : Int), e0.str_ptr, some n0)
            n e h3 hl2 hle (by dsimp only; omega)

/-- C2 amended: for the most recently created scalar, the simulated-memory
record begins, in order of increasing address, with the size-in-bytes byte,
then name byte 1, then name byte 2 (0 if the name has fewer than three
characters), then the remaining-length byte (0 for names of at most three
characters), and the value bytes start at `var_ptr` (for string scalars the
value bytes are the length byte followed by the two little-endian pointer
bytes).  Restricted to the last-created scalar because `get_var_memory`
reads the name and pointers of the *last* entry in dict iteration order
rather than those of the record it found. -/
theorem c2_scalar_record_layout (st : BState) (name : String)
    (e : VarMemEntry) (v : List Nat)
    (hwf : ScalarWF st)
    (hlast : st.var_memory.getLast? = some (name, e))
    (hv : st.vars.lookup name = some v) :
    get_var_memory st e.name_ptr = (byte_size0 (sigilOf name) : Int) ∧
    get_var_memory st (e.name_ptr + 1) =
      ((py_char name.data 0).toUpper.toNat : Int) ∧
    get_var_memory st (e.name_ptr + 2) =
      (if name.length > 2 then ((py_char name.data 1).toUpper.toNat : Int)
       else 0) ∧
    get_var_memory st (e.name_ptr + 3) =
      (if name.length > 3 then (name.length : Int) - 3 else 0) ∧
    ∀ j, j < byte_size0 (sigilOf name) →
      get_var_memory st (e.var_ptr + j) =
        ((if sigilOf name = '$' then
            v.length % 256 :: value_to_uint e.str_ptr
          else v).getD j 0 : Int) := by
  obtain ⟨hchain, hvc, _⟩ := hwf
  obtain ⟨hvp, hend, hstart⟩ := chain_last_facts st.var_memory var_mem_start
    name e hchain hlast
  rw [hend] at hvc
  have hscan : ∀ addr : Int, (e.name_ptr : Int) ≤ addr →
      find_var_scan addr st.var_memory =
        ((e.name_ptr : Int), (e.var_ptr : Int), e.str_ptr, some name) := by
    intro addr haddr
    exact find_var_scan_last addr st.var_memory var_mem_start _ name e hchain
      hlast haddr (by norm_num [var_mem_start])
  have hbs3 : 3 ≤ max 3 name.length := le_max_left _ _
  have heval : ∀ address : Nat, address < st.var_current →
      (e.name_ptr : Int) ≤ (address : Int) →
      get_var_memory st address =
        if (e.var_ptr : Int) ≤ (address : Int) then
          (if (byte_size0 (sigilOf name) : Int) ≤
              (address : Int) - (e.var_ptr : Int) then -1
           else
             ((((if sigilOf name = '$' then
                 ((st.vars.lookup name).getD []).length % 256 ::
                   value_to_uint e.str_ptr
               else (st.vars.lookup name).getD []).getD
                 ((address : Int) - (e.var_ptr : Int)).toNat 0) : Nat) : Int))
        else get_name_in_memory name ((address : Int) - (e.name_ptr : Int)) := by
    intro address hlt hge
    unfold get_var_memory
    rw [if_pos hlt, hscan (address : Int) hge, hlast]
  have hhdr : ∀ k : Nat, k < max 3 name.length + 1 →
      get_var_memory st (e.name_ptr + k) =
        get_name_in_memory name (k : Int) := by
    intro k hk
    rw [heval (e.name_ptr + k) (by omega) (by push_cast; omega)]
    rw [if_neg (by push_cast; omega)]
    congr 1
    push_cast
    ring
  refine ⟨?_, ?_, ?_, ?_, ?_⟩
  · have h := hhdr 0 (by omega)
    rw [Nat.add_zero] at h
    rw [h]
    norm_num [get_name_in_memory]
  · have h := hhdr 1 (by omega)
    rw [h]
    norm_num [get_name_in_memory]
  · have h := hhdr 2 (by omega)
    rw [h]
    norm_num [get_name_in_memory]
  · have h := hhdr 3 (by omega)
    rw [h]
    norm_num [get_name_in_memory]
  · intro j hj
    rw [heval (e.var_ptr + j) (by omega) (by omega)]
    rw [if_pos (by push_cast; omega)]
    have hoff : ((e.var_ptr + j : Nat) : Int) - (e.var_ptr : Int) = (j : Int) := by
      push_cast
      ring
    rw [hoff]
    rw [if_neg (by omega)]
    rw [hv]
    norm_num

/-- The state after `set_var "A%" [1,0]` on the cleared state. -/
def c2_state0 : BState :=
  { clear_state with
    vars := [("A%", [1, 0])],
    var_current := 4726,
    var_memory := [("A%", ⟨4720, 4724, -1⟩)] }

/-- C2 counterexample: after storing the integer scalar `A%`, PEEK at the
first byte of its record (`name_ptr = 4720`) returns 2, the size-in-bytes
byte — not 65 (`'A'`), the first name byte the claim expects there: the
size byte comes first, not fourth. -/
theorem c2_counterexample :
    set_var "A%" (BValue.numVal [1, 0]) clear_state = .ok c2_state0 ∧
    get_var_memory c2_state0 var_mem_start = 2 ∧
    (2 : Int) ≠ 65 := by
  refine ⟨by decide, by decide, by decide⟩

/-- Two integer scalars `A%`, `B%` stored in order; used by the C2
witness. -/
def c2_state2 : BState :=
  { clear_state with
    vars := [("A%", [1, 0]), ("B%", [2, 0])],
    var_current := 4732,
    var_memory := [("A%", ⟨4720, 4724, -1⟩), ("B%", ⟨4726, 4730, -1⟩)] }

/-- C2 witness: the record of the most recently created scalar `B%` reads
back as size byte 2, name byte `B` (66), 0, 0, then the value bytes. -/
theorem c2_witness :
    ScalarWF c2_state2 ∧
    get_var_memory c2_state2 4726 = 2 ∧
    get_var_memory c2_state2 4727 = 66 ∧
    get_var_memory c2_state2 4728 = 0 ∧
    get_var_memory c2_state2 4729 = 0 ∧
    get_var_memory c2_state2 4730 = 2 ∧
    get_var_memory c2_state2 4731 = 0 := by
  have hwf : ScalarWF c2_state2 := by
    refine ⟨⟨rfl, rfl, rfl, rfl, trivial⟩, rfl, ?_⟩
    intro p hp
    rcases List.mem_cons.mp hp with rfl | hp
    · exact ⟨rfl, by decide, ⟨[1, 0], rfl, rfl⟩⟩
    · rcases List.mem_cons.mp hp with rfl | hp
      · exact ⟨rfl, by decide, ⟨[2, 0], rfl, rfl⟩⟩
      · simp at hp
  have h := c2_scalar_record_layout c2_state2 "B%" ⟨4726, 4730, -1⟩ [2, 0]
    hwf rfl rfl
  refine ⟨hwf, h.1, h.2.1, ?_, ?_, ?_, ?_⟩
  · have h2 := h.2.2.1
    simpa using h2
  · have h3 := h.2.2.2.1
    simpa using h3
  · have h4 := h.2.2.2.2 0 (by decide)
    simpa using h4
  · have h5 := h.2.2.2.2 1 (by decide)
    simpa using h5

/-! ## Claim C2: reachability of well-formed states -/

theorem clear_state_scalar_wf : ScalarWF clear_state := by
  refine ⟨trivial, rfl, ?_⟩
  intro p hp
  simp [clear_state] at hp

theorem complete_name_is_sigil (name : String) :
    isSigil (sigilOf (complete_name name)) := by
  unfold complete_name
  by_cases h : isSigil (sigilOf name)
  · rw [if_pos h]
    exact h
  · rw [if_neg h]
    have hp : sigilOf (name.push '!') = '!' := by
      unfold sigilOf
      have : (name.push '!').data = name.data ++ ['!'] := rfl
      rw [this, List.getLast?_concat]
      rfl
    rw [hp]
    rfl

theorem complete_name_pos_length (name : String) :
    1 ≤ (complete_name name).length := by
  unfold complete_name
  by_cases h : isSigil (sigilOf name)
  · rw [if_pos h]
    by_contra hc
    push_neg at hc
    interval_cases hn : name.length
    · have : name.data = [] := List.length_eq_zero.mp hn
      unfold sigilOf at h
      rw [this] at h
      simp [isSigil] at h
  · rw [if_neg h]
    have : (name.push '!').length = name.length + 1 := String.length_push ..
    omega

theorem lookup_dict_set_ne (n p : String) (v : List Nat)
    (l : List (String × List Nat)) (hne : p ≠ n) :
    (dict_set n v l).lookup p = l.lookup p := by
  unfold dict_set
  by_cases h : (l.lookup n).isSome
  · rw [if_pos h]
    clear h
    induction l with
    | nil => rfl
    | cons q rest ih =>
        rcases q with ⟨k, b⟩
        by_cases hk : k = n
        · subst hk
          simp only [List.map_cons]
          rw [if_pos trivial]
          simp only [List.lookup]
          have : (p == k) = false := by
            simp only [beq_eq_false_iff_ne, ne_eq]
            exact hne
          rw [this]
          exact ih
        · simp only [List.map_cons]
          rw [if_neg (by simpa using hk)]
          simp only [List.lookup]
          cases hpk : (p == k)
          · exact ih
          · rfl
  · rw [if_neg h]
    induction l with
    | nil =>
        simp only [List.nil_append, List.lookup]
        have : (p == n) = false := by
          simp only [beq_eq_false_iff_ne, ne_eq]
          exact hne
        rw [this]
    | cons q rest ih =>
        rcases q with ⟨k, b⟩
        simp only [List.cons_append, List.lookup]
        cases hpk : (p == k)
        · exact ih (by
            intro hs
            exact h (by
              simp only [List.lookup]
              cases hnk : (n == k)
              · exact hs
              · rfl))
        · rfl

theorem chain_from_append (l : List (String × VarMemEntry)) :
    ∀ (a : Nat) (x : String × VarMemEntry), chain_from a l →
    x.2.name_ptr = chain_end a l →
    x.2.var_ptr = chain_end a l + max 3 x.1.length + 1 →
    chain_from a (l ++ [x]) ∧
    chain_end a (l ++ [x]) = chain_end a l + record_len x.1 := by
  induction l with
  | nil =>
      intro a x _ h1 h2
      refine ⟨⟨h1, h2, trivial⟩, ?_⟩
      simp [chain_end]
  | cons q rest ih =>
      intro a x hc h1 h2
      rcases q with ⟨n0, e0⟩
      obtain ⟨g1, g2, g3⟩ := hc
      have hrl : e0.var_ptr + byte_size0 (sigilOf n0) = a + record_len n0 := by
        simp only [record_len]
        omega
      have hce : chain_end a ((n0, e0) :: rest) =
          chain_end (a + record_len n0) rest := rfl
      rw [hce] at h1 h2
      obtain ⟨f1, f2⟩ := ih (a + record_len n0) x (hrl ▸ g3) h1 h2
      refine ⟨⟨g1, g2, ?_⟩, ?_⟩
      · rw [hrl]
        exact f1
      · simp only [List.cons_append, chain_end]
        exact f2

/-- Setting a fresh scalar preserves the well-formedness invariant that the
C2 record-layout theorem assumes (numeric values must carry the type's
byte width, as `pass_type_keep` guarantees in the source). -/
theorem set_var_fresh_preserves_wf (name0 : String) (v : BValue)
    (st st' : BState) (hwf : ScalarWF st)
    (hfresh : st.var_memory.lookup (complete_name name0) = none)
    (hlen : ∀ b, v = .numVal b →
      b.length = byte_size0 (sigilOf (complete_name name0)))
    (hok : set_var name0 v st = .ok st') : ScalarWF st' := by
  obtain ⟨hchain, hvc, hvals⟩ := hwf
  unfold set_var at hok
  dsimp only at hok
  cases v with
  | strVal s =>
      by_cases htc : sigilOf (complete_name name0) = '$'
      · rw [show pass_type_keep (sigilOf (complete_name name0)) (.strVal s) =
            .ok (.strVal s) by
              unfold pass_type_keep; dsimp only; rw [if_pos htc]] at hok
        dsimp only at hok
        rw [hfresh] at hok
        rw [if_pos (show (none : Option VarMemEntry).isNone = true from rfl),
          if_pos htc] at hok
        injection hok with hst
        subst hst
        obtain ⟨f1, f2⟩ := chain_from_append st.var_memory var_mem_start
          (complete_name name0,
            ⟨st.var_current, st.var_current + max 3 (complete_name name0).length + 1,
             st.string_current - ((s.take 255).length : Int) + 1⟩)
          hchain (by dsimp only; omega) (by dsimp only; omega)
        refine ⟨f1, ?_, ?_⟩
        · rw [f2]
          simp only [record_len]
          rw [htc]
          omega
        · intro p hp
          rcases List.mem_append.mp hp with hp | hp
          · have hne := lookup_none_forall st.var_memory _ hfresh p hp
            obtain ⟨w1, w2, w, hw, hw2⟩ := hvals p hp
            exact ⟨w1, w2, w, by
              rw [lookup_dict_set_ne _ _ _ _ hne]
              exact hw, hw2⟩
          · rcases List.mem_singleton.mp hp with rfl
            refine ⟨complete_name_is_sigil name0, complete_name_pos_length name0,
              s.take 255, lookup_dict_set _ _ _, ?_⟩
            dsimp only
            rw [if_pos htc]
            simp
      · rw [show pass_type_keep (sigilOf (complete_name name0)) (.strVal s) =
            .error 13 by
              unfold pass_type_keep; dsimp only; rw [if_neg htc]] at hok
        exact Except.noConfusion hok
  | numVal b =>
      by_cases htc : sigilOf (complete_name name0) = '$'
      · rw [show pass_type_keep (sigilOf (complete_name name0)) (.numVal b) =
            .error 13 by
              unfold pass_type_keep; dsimp only; rw [if_pos htc]] at hok
        exact Except.noConfusion hok
      · rw [show pass_type_keep (sigilOf (complete_name name0)) (.numVal b) =
            .ok (.numVal b) by
              unfold pass_type_keep; dsimp only; rw [if_neg htc]] at hok
        dsimp only at hok
        rw [hfresh] at hok
        rw [if_pos (show (none : Option VarMemEntry).isNone = true from rfl),
          if_neg htc] at hok
        injection hok with hst
        subst hst
        obtain ⟨f1, f2⟩ := chain_from_append st.var_memory var_mem_start
          (complete_name name0,
            ⟨st.var_current, st.var_current + max 3 (complete_name name0).length + 1, -1⟩)
          hchain (by dsimp only; omega) (by dsimp only; omega)
        refine ⟨f1, ?_, ?_⟩
        · rw [f2]
          simp only [record_len]
          omega
        · intro p hp
          rcases List.mem_append.mp hp with hp | hp
          · have hne := lookup_none_forall st.var_memory _ hfresh p hp
            obtain ⟨w1, w2, w, hw, hw2⟩ := hvals p hp
            exact ⟨w1, w2, w, by
              rw [lookup_dict_set_ne _ _ _ _ hne]
              exact hw, hw2⟩
          · rcases List.mem_singleton.mp hp with rfl
            refine ⟨complete_name_is_sigil name0, complete_name_pos_length name0,
              b, lookup_dict_set _ _ _, ?_⟩
            dsimp only
            rw [if_neg htc]
            exact hlen b rfl

end PCBasic
